import Mathlib

/-! Sales-summary script: CSV ingestion core.

A shallow embedding of `src/script.js` (`parseDataUrl`, `decodeBase64ToText`,
`parseCsv` and the pure steps of `processSalesData`: decoding the attachment,
inferring the two columns, summing the sales) and the properties its
specification states about them.

JavaScript strings are modelled as lists of characters.  Every character the
script inspects (`,` `;` TAB, CR, LF, `"`, the white space stripped by
`trim`, the digits, sign and dot read by `parseFloat`) is a single UTF-16
code unit, and the script never cuts a string inside a character, so working
with characters instead of code units changes neither a comparison the script
performs nor a string it builds (positions are then counted in characters on
both sides of every `indexOf` / `substring` pair).
-/

namespace SalesScript

/-- A JavaScript string, as the sequence of its characters. -/
abbrev JsString := List Char

/-! ## Built-in string operations used by the script -/

/-- The method `String.prototype.indexOf` for a one-character needle: the
position of the first occurrence, `none` standing for the result `-1`. -/
def indexOf (c : Char) : JsString → Option Nat
  | [] => none
  | x :: xs => if x == c then some 0 else (indexOf c xs).map (· + 1)

/-- Helper of `split`: put a character in front of the first piece. -/
def pushFront (c : Char) : List JsString → List JsString
  | [] => [[c]]
  | piece :: pieces => (c :: piece) :: pieces

/-- The method `String.prototype.split` for a one-character separator: the
pieces between the occurrences of the separator (one piece more than there
are occurrences; the empty string gives one empty piece). -/
def split (sep : Char) : JsString → List JsString
  | [] => [[]]
  | c :: rest => if c == sep then [] :: split sep rest else pushFront c (split sep rest)

/-- White space as `String.prototype.trim` and `parseFloat` understand it:
the ECMAScript `WhiteSpace` and `LineTerminator` code points. -/
def isJsWhitespace (c : Char) : Bool :=
  c.toNat == 0x09 || c.toNat == 0x0A || c.toNat == 0x0B || c.toNat == 0x0C ||
  c.toNat == 0x0D || c.toNat == 0x20 || c.toNat == 0xA0 || c.toNat == 0x1680 ||
  (0x2000 ≤ c.toNat && c.toNat ≤ 0x200A) || c.toNat == 0x2028 || c.toNat == 0x2029 ||
  c.toNat == 0x202F || c.toNat == 0x205F || c.toNat == 0x3000 || c.toNat == 0xFEFF

/-- The method `String.prototype.trim`: white space removed at both ends. -/
def trim (s : JsString) : JsString :=
  ((s.dropWhile isJsWhitespace).reverse.dropWhile isJsWhitespace).reverse

/-- The test `isNaN(parseFloat(s))`.  `parseFloat` skips leading white space
and reads the longest prefix that is a `StrDecimalLiteral` (an optional sign,
then `Infinity`, or digits, or a dot followed by a digit, ...); the result is
`NaN` exactly when no prefix has that form. -/
def parseFloatIsNaN (s : JsString) : Bool :=
  let t := s.dropWhile isJsWhitespace
  let u := match t with
    | '+' :: r => r
    | '-' :: r => r
    | _ => t
  match u with
  | '.' :: c :: _ => !c.isDigit
  | c :: _ => !(c.isDigit || "Infinity".toList.isPrefixOf u)
  | [] => true

/-! ## `parseCsv` -/

/-- The replacement `text.replace(/\r\n/g, '\n')`. -/
def replaceCrLf : JsString → JsString
  | '\r' :: '\n' :: rest => '\n' :: replaceCrLf rest
  | c :: rest => c :: replaceCrLf rest
  | [] => []

/-- The replacement `text.replace(/\r/g, '\n')`. -/
def replaceCr (s : JsString) : JsString :=
  s.map fun c => if c == '\r' then '\n' else c

/-- Line-ending normalisation, the first statement of `parseCsv`. -/
def normalize (text : JsString) : JsString :=
  replaceCr (replaceCrLf text)

/-- The candidate delimiters, in the order the loop visits them. -/
def delimiters : List Char := [',', ';', '\t']

/-- The expression
`text.indexOf('\n') !== -1 ? text.substring(0, text.indexOf('\n')) : text`. -/
def firstLine (text : JsString) : JsString :=
  match indexOf '\n' text with
  | some i => text.take i
  | none => text

/-- One iteration of the sniffing loop; the state is `(delimiter, maxSeparators)`. -/
def sniffStep (text : JsString) (st : Char × Nat) (delim : Char) : Char × Nat :=
  let count := (split delim (firstLine text)).length
  if count > st.2 then (delim, count) else st

/-- The delimiter chosen by the sniffing loop of `parseCsv`, run on the
normalised text, from the initial state `delimiter = ','`, `maxSeparators = 0`. -/
def sniffDelimiter (text : JsString) : Char :=
  (delimiters.foldl (sniffStep text) (',', 0)).1

/-- Whether a character is the double quote, the only distinction the
look-ahead of the row-splitting pattern makes between characters. -/
def isQuote (c : Char) : Bool := c == '"'

/-- The body of the look-ahead in the row-splitting pattern,
`(?:[^"]*"[^"]*")*[^"]*`, over the alphabet "is a double quote": `char true`
is the atom `"` and `char false` is the class `[^"]`.  The pattern has no
other atom, so it reads a line only through `isQuote`. -/
def lookahead : RegularExpression Bool :=
  RegularExpression.star
      (RegularExpression.star (RegularExpression.char false) * RegularExpression.char true *
        RegularExpression.star (RegularExpression.char false) * RegularExpression.char true) *
    RegularExpression.star (RegularExpression.char false)

/-- The look-ahead `(?=(?:[^"]*"[^"]*")*[^"]*$)` at a position: the rest of
the line, up to its end (`$`, no `m` flag), matches the body.  A look-ahead
succeeds when some way of matching exists, which is what `rmatch` decides. -/
def lookaheadMatches (rest : JsString) : Bool :=
  lookahead.rmatch (rest.map isQuote)

/-- The call `line.split(regex)` with `regex` the delimiter followed by the
look-ahead: the line is cut at every position where the pattern matches, that
is at a delimiter character after which the look-ahead succeeds; the matched
delimiter is dropped.  The delimiter is one of `,` `;` TAB, each of which
stands for itself in a pattern. -/
def splitRegex (delimiter : Char) : JsString → List JsString
  | [] => [[]]
  | c :: rest =>
    if c == delimiter && lookaheadMatches rest then [] :: splitRegex delimiter rest
    else pushFront c (splitRegex delimiter rest)

/-- The replacement `s.replace(/^"|"$/g, '')`, scanning from a position that
is the start of the string or not: a double quote is deleted when it stands
at the start (`^"`) or at the end (`"$`) of the string. -/
def stripEdgeQuotesFrom (atStart : Bool) : JsString → JsString
  | [] => []
  | c :: rest =>
    if c == '"' && (atStart || rest.isEmpty) then stripEdgeQuotesFrom false rest
    else c :: stripEdgeQuotesFrom false rest

/-- The replacement `s.replace(/^"|"$/g, '')`. -/
def stripEdgeQuotes (s : JsString) : JsString :=
  stripEdgeQuotesFrom true s

/-- The callback applied to every field of a data row:
`cell.trim().replace(/^"|"$/g, '')`. -/
def cleanCell (cell : JsString) : JsString :=
  stripEdgeQuotes (trim cell)

/-- The callback applied to every data line: split on the pattern, then clean
every field. -/
def parseRow (delimiter : Char) (line : JsString) : List JsString :=
  (splitRegex delimiter line).map cleanCell

/-- The object returned by `parseCsv`.  `headers` is `none` for the value
`null` and `some hs` for an array. -/
structure Table where
  headers : Option (List JsString)
  rows : List (List JsString)
  deriving DecidableEq, Repr

/-- The lines kept by `text.split('\n').filter(line => line.trim() !== '')`. -/
def nonBlankLines (text : JsString) : List JsString :=
  (split '\n' text).filter fun line => trim line != []

/-- The test `firstRow.some(cell => isNaN(parseFloat(cell.trim())))`. -/
def isHeaderRow (firstRow : List JsString) : Bool :=
  firstRow.any fun cell => parseFloatIsNaN (trim cell)

/-- The function `parseCsv`. -/
def parseCsv (input : JsString) : Table :=
  let text := normalize input
  let delimiter := sniffDelimiter text
  let lines := nonBlankLines text
  match lines with
  | [] => { headers := some [], rows := [] }
  | first :: rest =>
    let firstRow := split delimiter first
    let isHeader := isHeaderRow firstRow
    let headers := if isHeader then some (firstRow.map trim) else none
    let dataLines := if isHeader then rest else lines
    { headers := headers, rows := dataLines.map (parseRow delimiter) }

/-! ## `parseDataUrl` -/

/-- The method `String.prototype.substring(start, end)`: the characters from
the smaller to the larger of the two positions. -/
def substring (s : JsString) (i j : Nat) : JsString :=
  (s.take (max i j)).drop (min i j)

/-- The object returned by `parseDataUrl`. -/
structure DataUrl where
  mime : JsString
  isBase64 : Bool
  payload : JsString
  deriving DecidableEq, Repr

/-- The function `parseDataUrl`; a thrown `Error` is returned as its message. -/
def parseDataUrl (url : JsString) : Except String DataUrl :=
  if !("data:".toList.isPrefixOf url) then
    .error "Invalid data URL"
  else
    match indexOf ',' url with
    | none => .error "Invalid data URL format"
    | some commaIndex =>
      let header := substring url 5 commaIndex
      let payload := url.drop (commaIndex + 1)
      let parts := split ';' header
      let mime := match parts.head? with
        | some p => if p.isEmpty then "text/plain".toList else p
        | none => "text/plain".toList
      let isBase64 := parts.contains "base64".toList
      .ok { mime := mime, isBase64 := isBase64, payload := payload }

/-! ## Notions of the specification -/

/-- Whether `parseCsv` classifies the first non-blank line as a header: the
value of `isHeader`, and `false` when the function returns before computing it. -/
def headerDetected (input : JsString) : Bool :=
  match nonBlankLines (normalize input) with
  | [] => false
  | first :: _ => isHeaderRow (split (sniffDelimiter (normalize input)) first)

/-- The split points the specification describes for a data line: the
positions of the delimiter occurrences after which the text up to the end of
the line holds an even number of double quotes. -/
def splitPoints (delimiter : Char) (line : JsString) : List Nat :=
  (List.range line.length).filter fun i =>
    line.get? i == some delimiter && (line.drop (i + 1)).count '"' % 2 == 0

/-- The pieces of a line cut at the given positions, from `start` on: each
piece runs up to the next position, whose character is dropped. -/
def cutAt (line : JsString) : Nat → List Nat → List JsString
  | start, [] => [line.drop start]
  | start, p :: ps => (line.take p).drop start :: cutAt line (p + 1) ps

/-! ## Decoding the attachment (`decodeBase64ToText`, `processSalesData`) -/

/-- The method `String.prototype.includes`: the needle occurs somewhere in
the string. -/
def includes (s needle : JsString) : Bool :=
  s.tails.any fun t => needle.isPrefixOf t

/-- ASCII white space, which `atob` removes before decoding. -/
def isAsciiWhitespace (c : Char) : Bool :=
  c.toNat == 0x09 || c.toNat == 0x0A || c.toNat == 0x0C || c.toNat == 0x0D || c.toNat == 0x20

/-- The base64 alphabet, in the order of the values of its characters. -/
def base64Alphabet : JsString :=
  "ABCDEFGHIJKLMNOPQRSTUVWXYZabcdefghijklmnopqrstuvwxyz0123456789+/".toList

/-- The step of `atob` that removes one or two trailing `=` when the length
is a multiple of four. -/
def stripBase64Padding (data : JsString) : JsString :=
  if data.length % 4 == 0 then
    if data.getLast? == some '=' then
      if data.dropLast.getLast? == some '=' then data.dropLast.dropLast else data.dropLast
    else data
  else data

/-- The bytes carried by a sequence of six-bit values: three bytes for every
four values; two remaining values give one byte (their last four bits are
discarded) and three remaining values give two bytes (last two bits
discarded). -/
def base64Bytes : List Nat → List Nat
  | a :: b :: c :: d :: rest =>
    (((a * 64 + b) * 64 + c) * 64 + d) / 65536 ::
      (((a * 64 + b) * 64 + c) * 64 + d) / 256 % 256 ::
      (((a * 64 + b) * 64 + c) * 64 + d) % 256 :: base64Bytes rest
  | [a, b, c] => [((a * 64 + b) * 64 + c) / 4 / 256, ((a * 64 + b) * 64 + c) / 4 % 256]
  | [a, b] => [(a * 64 + b) / 16]
  | _ => []

/-- The function `atob` (forgiving base64 decoding): the code units of the
binary string it returns, or `none` when it throws. -/
def atob (data : JsString) : Option (List Nat) :=
  let stripped := stripBase64Padding (data.filter fun c => !isAsciiWhitespace c)
  if stripped.length % 4 == 1 then none
  else if stripped.all fun c => base64Alphabet.contains c then
    some (base64Bytes (stripped.map fun c => (indexOf c base64Alphabet).getD 0))
  else none

/-- The state of the UTF-8 decoder of `TextDecoder`: the code point being
assembled, the continuation bytes still needed, and the bounds the next
continuation byte has to respect. -/
structure Utf8State where
  codePoint : Nat
  bytesNeeded : Nat
  lower : Nat
  upper : Nat
  deriving DecidableEq, Repr

/-- The initial state of the UTF-8 decoder. -/
def Utf8State.initial : Utf8State :=
  { codePoint := 0, bytesNeeded := 0, lower := 0x80, upper := 0xBF }

/-- The decoder's reaction to a byte read while no continuation byte is
needed: the characters emitted and the next state. -/
def utf8Lead (b : Nat) : JsString × Utf8State :=
  if b ≤ 0x7F then ([Char.ofNat b], Utf8State.initial)
  else if 0xC2 ≤ b ∧ b ≤ 0xDF then
    ([], { codePoint := b % 0x20, bytesNeeded := 1, lower := 0x80, upper := 0xBF })
  else if 0xE0 ≤ b ∧ b ≤ 0xEF then
    ([], { codePoint := b % 0x10, bytesNeeded := 2,
           lower := if b = 0xE0 then 0xA0 else 0x80,
           upper := if b = 0xED then 0x9F else 0xBF })
  else if 0xF0 ≤ b ∧ b ≤ 0xF4 then
    ([], { codePoint := b % 0x08, bytesNeeded := 3,
           lower := if b = 0xF0 then 0x90 else 0x80,
           upper := if b = 0xF4 then 0x8F else 0xBF })
  else ([Char.ofNat 0xFFFD], Utf8State.initial)

/-- The UTF-8 decoder of `TextDecoder` in its default replacement mode: an
ill-formed sequence gives U+FFFD, and the byte that broke a sequence is read
again as the start of the next one. -/
def utf8Decode : Utf8State → List Nat → JsString
  | st, [] => if st.bytesNeeded = 0 then [] else [Char.ofNat 0xFFFD]
  | st, b :: bs =>
    if st.bytesNeeded = 0 then
      (utf8Lead b).1 ++ utf8Decode (utf8Lead b).2 bs
    else if b < st.lower ∨ st.upper < b then
      Char.ofNat 0xFFFD :: ((utf8Lead b).1 ++ utf8Decode (utf8Lead b).2 bs)
    else if st.bytesNeeded = 1 then
      Char.ofNat (st.codePoint * 64 + b % 64) :: utf8Decode Utf8State.initial bs
    else
      utf8Decode
        { codePoint := st.codePoint * 64 + b % 64, bytesNeeded := st.bytesNeeded - 1,
          lower := 0x80, upper := 0xBF } bs

/-- The call `new TextDecoder().decode(bytes)`: a leading byte order mark is
dropped, the rest is decoded as UTF-8. -/
def textDecode (bytes : List Nat) : JsString :=
  match bytes with
  | 0xEF :: 0xBB :: 0xBF :: rest => utf8Decode Utf8State.initial rest
  | _ => utf8Decode Utf8State.initial bytes

/-- The function `decodeBase64ToText`: whatever `atob` throws is caught and
thrown again as `Failed to decode base64 data`; the bytes stored in the
`Uint8Array` are the code units of the binary string. -/
def decodeBase64ToText (b64 : JsString) : Except String JsString :=
  match atob b64 with
  | none => .error "Failed to decode base64 data"
  | some binaryString => .ok (textDecode (binaryString.map fun u => u % 256))

/-- The value of a hexadecimal digit. -/
def hexValue (c : Char) : Option Nat :=
  if '0' ≤ c ∧ c ≤ '9' then some (c.toNat - '0'.toNat)
  else if 'a' ≤ c ∧ c ≤ 'f' then some (c.toNat - 'a'.toNat + 10)
  else if 'A' ≤ c ∧ c ≤ 'F' then some (c.toNat - 'A'.toNat + 10)
  else none

/-- The octet written by two hexadecimal digits. -/
def hexOctet (h1 h2 : Char) : Option Nat :=
  match hexValue h1, hexValue h2 with
  | some a, some b => some (a * 16 + b)
  | _, _ => none

/-- The character encoded by a multi-byte UTF-8 sequence, if the octets are
the well-formed encoding of one code point. -/
def utf8Strict : List Nat → Option Char
  | [b0, b1] =>
    if 0xC2 ≤ b0 ∧ b0 ≤ 0xDF ∧ 0x80 ≤ b1 ∧ b1 ≤ 0xBF then
      some (Char.ofNat (b0 % 0x20 * 64 + b1 % 64))
    else none
  | [b0, b1, b2] =>
    if 0xE0 ≤ b0 ∧ b0 ≤ 0xEF ∧ (if b0 = 0xE0 then 0xA0 else 0x80) ≤ b1 ∧
        b1 ≤ (if b0 = 0xED then 0x9F else 0xBF) ∧ 0x80 ≤ b2 ∧ b2 ≤ 0xBF then
      some (Char.ofNat ((b0 % 0x10 * 64 + b1 % 64) * 64 + b2 % 64))
    else none
  | [b0, b1, b2, b3] =>
    if 0xF0 ≤ b0 ∧ b0 ≤ 0xF4 ∧ (if b0 = 0xF0 then 0x90 else 0x80) ≤ b1 ∧
        b1 ≤ (if b0 = 0xF4 then 0x8F else 0xBF) ∧ 0x80 ≤ b2 ∧ b2 ≤ 0xBF ∧
        0x80 ≤ b3 ∧ b3 ≤ 0xBF then
      some (Char.ofNat (((b0 % 0x08 * 64 + b1 % 64) * 64 + b2 % 64) * 64 + b3 % 64))
    else none
  | _ => none

/-- The number of leading one bits of an octet, as far as `decodeURIComponent`
distinguishes them (five stands for five or more). -/
def leadingOnes (b : Nat) : Nat :=
  if b < 0x80 then 0 else if b < 0xC0 then 1 else if b < 0xE0 then 2
  else if b < 0xF0 then 3 else if b < 0xF8 then 4 else 5

/-- Put a character in front of a decoded text, when there is one. -/
def consOk (c : Char) : Except String JsString → Except String JsString
  | .ok s => .ok (c :: s)
  | .error e => .error e

/-- The function `decodeURIComponent`, reading from a position at which `need`
further escaped octets of a multi-byte character are expected, `octets` being
those read so far.  A `URIError` is returned as its message. -/
def decodeURIComponentFrom : Nat → List Nat → JsString → Except String JsString
  | need, octets, '%' :: h1 :: h2 :: rest =>
    match hexOctet h1 h2 with
    | none => .error "URI malformed"
    | some b =>
      if need = 0 then
        if leadingOnes b = 0 then consOk (Char.ofNat b) (decodeURIComponentFrom 0 [] rest)
        else if leadingOnes b = 1 ∨ 4 < leadingOnes b then .error "URI malformed"
        else decodeURIComponentFrom (leadingOnes b - 1) [b] rest
      else if need = 1 then
        match utf8Strict (octets ++ [b]) with
        | none => .error "URI malformed"
        | some c => consOk c (decodeURIComponentFrom 0 [] rest)
      else decodeURIComponentFrom (need - 1) (octets ++ [b]) rest
  | need, _, c :: rest =>
    if need ≠ 0 ∨ c = '%' then .error "URI malformed"
    else consOk c (decodeURIComponentFrom 0 [] rest)
  | need, _, [] => if need = 0 then .ok [] else .error "URI malformed"

/-- The function `decodeURIComponent`. -/
def decodeURIComponent (s : JsString) : Except String JsString :=
  decodeURIComponentFrom 0 [] s

/-- The `data:` branch of `processSalesData`, for an attachment URL that
starts with `data:`: the decoded CSV text, or the message of the error thrown. -/
def decodeDataUrl (attachmentUrl : JsString) : Except String JsString :=
  match parseDataUrl attachmentUrl with
  | .error e => .error e
  | .ok parsed =>
    if !(includes parsed.mime "csv".toList) then
      .error "Invalid MIME type for CSV data"
    else if parsed.isBase64 then decodeBase64ToText parsed.payload
    else decodeURIComponent parsed.payload

/-- The constant `attachmentUrl` of `processSalesData`. -/
def attachmentUrl : JsString :=
  ("data:text/csv;base64," ++
    "UHJvZHVjdHMsU2FsZXMKUGhvbmVzLDEwMDAKQm9va3MsMTIzLjQ1Ck5vdGVib29rcywxMTEuMTEK").toList

/-! ## Column inference and aggregation (`processSalesData`) -/

/-- The method `String.prototype.toLowerCase`, on ASCII letters.  Outside
ASCII the method may change other characters, but it never produces an ASCII
letter of `sale` or `product` from anything but that letter or its capital, so
the two header tests below read the same on every header. -/
def toLowerCase (s : JsString) : JsString :=
  s.map Char.toLower

/-- The method `Array.prototype.findIndex`: the position of the first element
that passes the test, `none` standing for the result `-1`. -/
def findIndex (p : JsString → Bool) : List JsString → Option Nat
  | [] => none
  | h :: t => if p h then some 0 else (findIndex p t).map (· + 1)

/-- The callback that recognises the sales column:
`header.toLowerCase().includes('sales') || header.toLowerCase().includes('sale')`. -/
def isSalesHeader (header : JsString) : Bool :=
  includes (toLowerCase header) "sales".toList || includes (toLowerCase header) "sale".toList

/-- The callback that recognises the product column:
`header.toLowerCase().includes('product')`. -/
def isProductHeader (header : JsString) : Bool :=
  includes (toLowerCase header) "product".toList

/-- The final value of `salesColumnIndex`: `-1` unless `headers` is truthy and
`findIndex` finds a column, and `-1` replaced by `1`. -/
def salesColumnIndex (headers : Option (List JsString)) : Nat :=
  match (match headers with
    | some hs => findIndex isSalesHeader hs
    | none => none) with
  | some i => i
  | none => 1

/-- The final value of `productColumnIndex`: `-1` unless `headers` is truthy
and `findIndex` finds a column, and `-1` replaced by `0`. -/
def productColumnIndex (headers : Option (List JsString)) : Nat :=
  match (match headers with
    | some hs => findIndex isProductHeader hs
    | none => none) with
  | some i => i
  | none => 0

/-- The two-state scanner the specification describes for a data line: it
starts outside quotes (`inside = false`), changes state at every double quote,
and cuts the line at the delimiter occurrences met while outside quotes. -/
def scanSplit (delimiter : Char) : Bool → JsString → List JsString
  | _, [] => [[]]
  | inside, c :: rest =>
    if c == '"' then pushFront c (scanSplit delimiter (!inside) rest)
    else if c == delimiter && !inside then [] :: scanSplit delimiter inside rest
    else pushFront c (scanSplit delimiter inside rest)

/-- The text with its blank lines deleted, as the specification speaks of it:
the lines of the normalised text whose trimmed content is not empty, joined
with newlines. -/
def deleteBlankLines (text : JsString) : JsString :=
  List.intercalate ['\n'] (nonBlankLines (normalize text))

/-- The text the specification rebuilds from a table:
`headers.join(d) + "\n" + rows.map(r => r.join(d)).join("\n")`. -/
def reconstruct (d : Char) (headers : List JsString) (rows : List (List JsString)) : JsString :=
  List.intercalate [d] headers ++
    '\n' :: List.intercalate ['\n'] (rows.map fun r => List.intercalate [d] r)

/-- A line rebuilt from its plain-split, trimmed cells: `cells.join(d)`. -/
def rejoinTrimmed (d : Char) (line : JsString) : JsString :=
  List.intercalate [d] ((split d line).map trim)

/-! ## Numbers and aggregation (`processSalesData`) -/

/-- A JavaScript number, that is an IEEE 754 binary64 value: `NaN`, an
infinity, or the finite value `± mantissa × 2 ^ exponent` in the one form with
`mantissa < 2 ^ 53`, `-1074 ≤ exponent ≤ 971`, and `2 ^ 52 ≤ mantissa` unless
`exponent = -1074` (zero and the subnormal numbers). -/
inductive JsNumber where
  | nan
  | infinity (negative : Bool)
  | finite (negative : Bool) (mantissa : Nat) (exponent : Int)
  deriving DecidableEq, Repr

/-- The number `+0`, the initial value of `totalSales`. -/
def JsNumber.zero : JsNumber := .finite false 0 (-1074)

/-- The function `isNaN` on a number. -/
def JsNumber.isNaN : JsNumber → Bool
  | .nan => true
  | _ => false

/-- The ratio `n / d` divided by `2 ^ e`, as a numerator and a denominator. -/
def scaleRatio (n d : Nat) (e : Int) : Nat × Nat :=
  if 0 ≤ e then (n, d * 2 ^ e.toNat) else (n * 2 ^ (-e).toNat, d)

/-- The integer nearest to `n / d`, the even one when two are equally near. -/
def roundHalfEven (n d : Nat) : Nat :=
  if 2 * (n % d) < d then n / d
  else if d < 2 * (n % d) then n / d + 1
  else if n / d % 2 = 0 then n / d
  else n / d + 1

/-- The number of binary digits of `n`, found by halving at most `fuel` times. -/
def bitLengthAux : Nat → Nat → Nat
  | 0, _ => 0
  | fuel + 1, n => if n = 0 then 0 else bitLengthAux fuel (n / 2) + 1

/-- The number of binary digits of `n`: `2 ^ (bitLength n - 1) ≤ n < 2 ^ bitLength n`
for positive `n`. -/
def bitLength (n : Nat) : Nat :=
  bitLengthAux n n

/-- The integer part of the binary logarithm of `n / d`, for positive `n`, `d`:
the difference of the bit lengths, or one less. -/
def floorLog2Ratio (n d : Nat) : Int :=
  if (scaleRatio n d ((bitLength n : Int) - (bitLength d : Int))).2
      ≤ (scaleRatio n d ((bitLength n : Int) - (bitLength d : Int))).1 then
    (bitLength n : Int) - (bitLength d : Int)
  else (bitLength n : Int) - (bitLength d : Int) - 1

/-- The binary64 value nearest to `± n / d` (round to nearest, ties to even),
for positive `d`: the result of every correctly rounded operation. -/
def roundToDouble (negative : Bool) (n d : Nat) : JsNumber :=
  if n = 0 then .finite negative 0 (-1074)
  else
    let e := max (floorLog2Ratio n d - 52) (-1074)
    let m := roundHalfEven (scaleRatio n d e).1 (scaleRatio n d e).2
    if m = 2 ^ 53 then
      (if 971 < e + 1 then .infinity negative else .finite negative (2 ^ 52) (e + 1))
    else if 971 < e then .infinity negative
    else .finite negative m e

/-- The integer value of a finite number counted in units of `2 ^ e`, for `e`
not above its exponent. -/
def signedUnits (negative : Bool) (mantissa : Nat) (exponent e : Int) : Int :=
  if negative then -((mantissa * 2 ^ (exponent - e).toNat : Nat) : Int)
  else ((mantissa * 2 ^ (exponent - e).toNat : Nat) : Int)

/-- The operator `+` on numbers. -/
def JsNumber.add : JsNumber → JsNumber → JsNumber
  | .nan, _ => .nan
  | _, .nan => .nan
  | .infinity a, .infinity b => if a = b then .infinity a else .nan
  | .infinity a, .finite _ _ _ => .infinity a
  | .finite _ _ _, .infinity b => .infinity b
  | .finite s₁ m₁ e₁, .finite s₂ m₂ e₂ =>
    if signedUnits s₁ m₁ e₁ (min e₁ e₂) + signedUnits s₂ m₂ e₂ (min e₁ e₂) = 0 then
      .finite (s₁ && s₂) 0 (-1074)
    else
      roundToDouble
        (decide (signedUnits s₁ m₁ e₁ (min e₁ e₂) + signedUnits s₂ m₂ e₂ (min e₁ e₂) < 0))
        ((signedUnits s₁ m₁ e₁ (min e₁ e₂) + signedUnits s₂ m₂ e₂ (min e₁ e₂)).natAbs
          * 2 ^ (min e₁ e₂).toNat)
        (2 ^ (-(min e₁ e₂)).toNat)

/-- The value of a run of decimal digits. -/
def digitsValue (digits : JsString) : Nat :=
  digits.foldl (fun acc c => acc * 10 + (c.toNat - '0'.toNat)) 0

/-- The value of an `ExponentPart` after its `e`: an optional sign and at
least one digit; without a digit there is no exponent part and the value is 0. -/
def exponentValue (r : JsString) : Int :=
  match r with
  | '-' :: ds => -(digitsValue (ds.takeWhile Char.isDigit) : Int)
  | '+' :: ds => (digitsValue (ds.takeWhile Char.isDigit) : Int)
  | ds => (digitsValue (ds.takeWhile Char.isDigit) : Int)

/-- The number `± n × 10 ^ scale`, rounded to binary64, as `parseFloat` rounds
the decimal it has read (ECMAScript lets an engine deviate from the nearest
value only for literals of more than twenty significant digits). -/
def decimalToDouble (negative : Bool) (n : Nat) (scale : Int) : JsNumber :=
  if 0 ≤ scale then roundToDouble negative (n * 10 ^ scale.toNat) 1
  else roundToDouble negative n (10 ^ (-scale).toNat)

/-- The digits of the fraction, when the text after the integer digits starts
with a dot. -/
def fractionDigits (afterInt : JsString) : JsString :=
  match afterInt with
  | '.' :: r => r.takeWhile Char.isDigit
  | _ => []

/-- The text after the fraction (after the integer digits when there is no dot). -/
def afterFraction (afterInt : JsString) : JsString :=
  match afterInt with
  | '.' :: r => r.dropWhile Char.isDigit
  | _ => afterInt

/-- The value of the exponent part, when the text after the fraction starts
with `e` or `E`. -/
def exponentOf (afterFrac : JsString) : Int :=
  match afterFrac with
  | 'e' :: r => exponentValue r
  | 'E' :: r => exponentValue r
  | _ => 0

/-- The value `parseFloat` reads after white space and sign: `Infinity`, or
the longest prefix made of digits, an optional fraction and an optional
exponent, rounded to the nearest number; `NaN` when there is neither an
integer digit nor a fraction digit. -/
def parseUnsigned (negative : Bool) (u : JsString) : JsNumber :=
  if "Infinity".toList.isPrefixOf u then .infinity negative
  else if u.takeWhile Char.isDigit = [] ∧ fractionDigits (u.dropWhile Char.isDigit) = [] then
    .nan
  else
    decimalToDouble negative
      (digitsValue (u.takeWhile Char.isDigit ++ fractionDigits (u.dropWhile Char.isDigit)))
      (exponentOf (afterFraction (u.dropWhile Char.isDigit))
        - ((fractionDigits (u.dropWhile Char.isDigit)).length : Int))

/-- Whether the text starts with a minus sign. -/
def hasMinusSign (t : JsString) : Bool :=
  match t with
  | '-' :: _ => true
  | _ => false

/-- The text after an optional sign. -/
def dropSign (t : JsString) : JsString :=
  match t with
  | '+' :: r => r
  | '-' :: r => r
  | _ => t

/-- The function `parseFloat`: leading white space is skipped, then the
longest prefix that is a `StrDecimalLiteral` is read (a sign, then `Infinity`
or digits with an optional fraction and an optional exponent) and its value is
rounded to the nearest number; without such a prefix the result is `NaN`. -/
def parseFloat (s : JsString) : JsNumber :=
  parseUnsigned (hasMinusSign (s.dropWhile isJsWhitespace))
    (dropSign (s.dropWhile isJsWhitespace))

/-- One iteration of the loop `for (const row of rows)` of `processSalesData`.
The state is `totalSales` and the rows appended so far to the product table,
each recorded as its product cell and its value (the second cell of the table
row shows `value.toFixed(2)`). -/
def aggregateStep (salesIndex productIndex : Nat)
    (st : JsNumber × List (JsString × JsNumber)) (row : List JsString) :
    JsNumber × List (JsString × JsNumber) :=
  if row.length > max salesIndex productIndex then
    if !(parseFloat (row.getD salesIndex [])).isNaN then
      (st.1.add (parseFloat (row.getD salesIndex [])),
        st.2 ++ [(row.getD productIndex [], parseFloat (row.getD salesIndex []))])
    else st
  else st

/-- The aggregation loop of `processSalesData`, from `totalSales = 0` and an
empty product table. -/
def aggregate (rows : List (List JsString)) (salesIndex productIndex : Nat) :
    JsNumber × List (JsString × JsNumber) :=
  rows.foldl (aggregateStep salesIndex productIndex) (JsNumber.zero, [])

/-- The rows the specification says contribute to the total: long enough to
hold both columns, with a value cell that parses as a number. -/
def contributes (salesIndex productIndex : Nat) (row : List JsString) : Bool :=
  decide (max salesIndex productIndex < row.length) &&
    !parseFloatIsNaN (row.getD salesIndex [])

/-- The statements of `parseCsv` that follow the sniffing and the filtering of
blank lines, with the delimiter and the non-blank lines as arguments: what
`parseCsv` returns for a text that sniffs `delimiter` and has these non-blank
lines. -/
def tableOfLines (delimiter : Char) (lines : List JsString) : Table :=
  match lines with
  | [] => { headers := some [], rows := [] }
  | first :: rest =>
    let firstRow := split delimiter first
    let isHeader := isHeaderRow firstRow
    let headers := if isHeader then some (firstRow.map trim) else none
    let dataLines := if isHeader then rest else lines
    { headers := headers, rows := dataLines.map (parseRow delimiter) }

/-! ## Properties -/

/-! ### Delimiter sniffing -/

theorem pushFront_length (c : Char) (ps : List JsString) (h : ps ≠ []) :
    (pushFront c ps).length = ps.length := by
  cases ps with
  | nil => exact absurd rfl h
  | cons p ps => rfl

theorem split_ne_nil (sep : Char) (s : JsString) : split sep s ≠ [] := by
  cases s with
  | nil => simp [split]
  | cons c rest =>
    by_cases h : c = sep
    · simp [split, h]
    · have := split_ne_nil sep rest
      cases hs : split sep rest with
      | nil => exact absurd hs this
      | cons p ps => simp [split, h, hs, pushFront]

theorem length_split (sep : Char) (s : JsString) :
    (split sep s).length = s.count sep + 1 := by
  induction s with
  | nil => simp [split]
  | cons c rest ih =>
    by_cases h : c = sep
    · subst h
      simp [split, ih]
    · have hne : (c == sep) = false := by simpa using h
      simp [split, h, pushFront_length c _ (split_ne_nil sep rest), ih, List.count_cons, hne]

theorem firstLine_eq_takeWhile (text : JsString) :
    firstLine text = text.takeWhile (fun c => c != '\n') := by
  unfold firstLine
  induction text with
  | nil => simp [indexOf]
  | cons c rest ih =>
    by_cases h : c = '\n'
    · subst h
      simp [indexOf]
    · have hne : (c == '\n') = false := by simpa using h
      simp only [indexOf, hne, Bool.false_eq_true, if_false]
      cases hi : indexOf '\n' rest with
      | none =>
        rw [hi] at ih
        simp only [Option.map_none']
        rw [List.takeWhile_cons]
        simp [h]
        exact ih
      | some i =>
        rw [hi] at ih
        simp only [Option.map_some']
        rw [List.takeWhile_cons]
        simp [h]
        exact ih


theorem sniffDelimiter_eq (t : JsString) :
    sniffDelimiter t =
      if (firstLine t).count ';' ≤ (firstLine t).count ',' then
        (if (firstLine t).count '\t' ≤ (firstLine t).count ',' then ',' else '\t')
      else (if (firstLine t).count '\t' ≤ (firstLine t).count ';' then ';' else '\t') := by
  simp only [sniffDelimiter, delimiters, List.foldl_cons, List.foldl_nil, sniffStep, length_split]
  split_ifs <;> first | rfl | omega

/-- C1. Delimiter sniffing: the first line the loop inspects is the normalised
text up to its first newline (the whole text if it has none); the field count
of a candidate on it is its number of occurrences plus one; the delimiter
chosen is one of `,` `;` TAB, no candidate has a greater field count, and every
candidate that comes earlier in the list has a strictly smaller one (so the
earliest candidate wins a tie).  It is `,` when the first line holds none of
the three characters, `,` for `a,b,c\n1,2,3` and `;` for `a;b\n1;2`. -/
theorem sniffDelimiter_greatest_field_count (text : JsString) :
    firstLine (normalize text) = (normalize text).takeWhile (fun c => c != '\n') ∧
    (∀ c ∈ delimiters,
      (split c (firstLine (normalize text))).length = (firstLine (normalize text)).count c + 1) ∧
    sniffDelimiter (normalize text) ∈ delimiters ∧
    (∀ c ∈ delimiters,
      (firstLine (normalize text)).count c + 1
        ≤ (firstLine (normalize text)).count (sniffDelimiter (normalize text)) + 1) ∧
    (∀ c ∈ delimiters,
      delimiters.indexOf c < delimiters.indexOf (sniffDelimiter (normalize text)) →
      (firstLine (normalize text)).count c + 1
        < (firstLine (normalize text)).count (sniffDelimiter (normalize text)) + 1) ∧
    ((∀ c ∈ delimiters, c ∉ firstLine (normalize text)) → sniffDelimiter (normalize text) = ',') ∧
    sniffDelimiter (normalize "a,b,c\n1,2,3".toList) = ',' ∧
    sniffDelimiter (normalize "a;b\n1;2".toList) = ';' := by
  refine ⟨firstLine_eq_takeWhile _, fun c _ => length_split c _, ?_, ?_, ?_, ?_, by decide, by decide⟩
  · rw [sniffDelimiter_eq]
    split_ifs <;> simp [delimiters]
  · intro c hc
    rw [sniffDelimiter_eq]
    simp only [delimiters, List.mem_cons, List.mem_singleton, List.not_mem_nil, or_false] at hc
    rcases hc with rfl | rfl | rfl <;> split_ifs <;> omega
  · intro c hc
    rw [sniffDelimiter_eq]
    simp only [delimiters, List.mem_cons, List.mem_singleton, List.not_mem_nil, or_false] at hc
    have i0 : List.indexOf ',' [',', ';', '\t'] = 0 := by decide
    have i1 : List.indexOf ';' [',', ';', '\t'] = 1 := by decide
    have i2 : List.indexOf '\t' [',', ';', '\t'] = 2 := by decide
    rcases hc with rfl | rfl | rfl <;> split_ifs <;> simp only [delimiters, i0, i1, i2] <;> omega
  · intro h
    rw [sniffDelimiter_eq]
    have h1 := List.count_eq_zero_of_not_mem (h ';' (by simp [delimiters]))
    have h2 := List.count_eq_zero_of_not_mem (h '\t' (by simp [delimiters]))
    simp [h1, h2]

theorem sniffDelimiter_greatest_field_count_witness :
    (∀ c ∈ delimiters,
      delimiters.indexOf c < delimiters.indexOf (sniffDelimiter (normalize "a,b;c;d\te".toList)) →
      (firstLine (normalize "a,b;c;d\te".toList)).count c + 1
        < (firstLine (normalize "a,b;c;d\te".toList)).count
            (sniffDelimiter (normalize "a,b;c;d\te".toList)) + 1) ∧
    sniffDelimiter (normalize "a,b;c;d\te".toList) = ';' :=
  ⟨(sniffDelimiter_greatest_field_count "a,b;c;d\te".toList).2.2.2.2.1, by decide⟩


/-! ### The look-ahead of the row-splitting pattern -/

theorem mem_kstar_false_iff (x : List Bool) :
    x ∈ KStar.kstar ({[false]} : Language Bool) ↔ ∀ b ∈ x, b = false := by
  rw [Language.mem_kstar]
  constructor
  · rintro ⟨L, rfl, hL⟩ b hb
    obtain ⟨y, hy, hby⟩ := List.mem_flatten.1 hb
    have : y = [false] := hL y hy
    subst this
    simpa using hby
  · intro h
    refine ⟨x.map fun b => [b], ?_, ?_⟩
    · clear h
      induction x with
      | nil => rfl
      | cons b x ih => simpa [List.flatten] using ih
    · intro y hy
      obtain ⟨b, hb, rfl⟩ := List.mem_map.1 hy
      rw [h b hb]
      rfl

theorem count_true_of_all_false (x : List Bool) (h : ∀ b ∈ x, b = false) :
    x.count true = 0 := by
  apply List.count_eq_zero_of_not_mem
  intro hx
  exact absurd (h true hx) (by decide)

/-- The language of one iteration of the group `[^"]*"[^"]*"`. -/
theorem mem_group_iff (x : List Bool) :
    x ∈ (RegularExpression.star (RegularExpression.char false) * RegularExpression.char true *
          RegularExpression.star (RegularExpression.char false) *
          RegularExpression.char true).matches' ↔
      ∃ n₁ n₂ : List Bool, (∀ b ∈ n₁, b = false) ∧ (∀ b ∈ n₂, b = false) ∧
        x = n₁ ++ true :: (n₂ ++ [true]) := by
  simp only [RegularExpression.matches'_mul, RegularExpression.matches'_star,
    RegularExpression.matches'_char, Language.mem_mul, mem_kstar_false_iff,
    Set.mem_singleton_iff]
  constructor
  · rintro ⟨a, ⟨a', ⟨n₁, h₁, q, rfl, rfl⟩, n₂, h₂, rfl⟩, q', rfl, rfl⟩
    exact ⟨n₁, n₂, h₁, h₂, by simp⟩
  · rintro ⟨n₁, n₂, h₁, h₂, rfl⟩
    exact ⟨n₁ ++ [true] ++ n₂, ⟨n₁ ++ [true], ⟨n₁, h₁, [true], rfl, rfl⟩, n₂, h₂, rfl⟩,
      [true], rfl, by simp⟩

theorem false_prefix_decomposition (x : List Bool) :
    ∃ n r : List Bool, (∀ b ∈ n, b = false) ∧ x = n ++ r ∧ (r = [] ∨ ∃ r', r = true :: r') := by
  induction x with
  | nil => exact ⟨[], [], by simp, rfl, Or.inl rfl⟩
  | cons b x ih =>
    cases b with
    | true => exact ⟨[], true :: x, by simp, rfl, Or.inr ⟨x, rfl⟩⟩
    | false =>
      obtain ⟨n, r, hn, rfl, hr⟩ := ih
      exact ⟨false :: n, r, by simpa using hn, rfl, hr⟩

theorem mem_lookahead_iff (x : List Bool) :
    x ∈ lookahead.matches' ↔ x.count true % 2 = 0 := by
  unfold lookahead
  rw [RegularExpression.matches'_mul, RegularExpression.matches'_star,
    RegularExpression.matches'_star, RegularExpression.matches'_char, Language.mem_mul]
  constructor
  · rintro ⟨g, hg, n, hn, rfl⟩
    rw [mem_kstar_false_iff] at hn
    rw [Language.mem_kstar] at hg
    obtain ⟨L, rfl, hL⟩ := hg
    rw [List.count_append, count_true_of_all_false n hn, Nat.add_zero]
    clear hn
    induction L with
    | nil => rfl
    | cons y L ih =>
      have hy := (mem_group_iff y).1 (hL y (List.mem_cons_self _ _))
      obtain ⟨n₁, n₂, h₁, h₂, rfl⟩ := hy
      have := ih fun z hz => hL z (List.mem_cons_of_mem _ hz)
      simp only [List.flatten_cons, List.count_append, List.count_cons, List.count_nil,
        count_true_of_all_false n₁ h₁, count_true_of_all_false n₂ h₂]
      simp
      omega
  · intro h
    obtain ⟨k, hlen⟩ : ∃ k, x.length = k := ⟨_, rfl⟩
    induction k using Nat.strong_induction_on generalizing x with
    | _ k ih =>
      obtain ⟨n₁, r, h₁, rfl, hr⟩ := false_prefix_decomposition x
      rcases hr with rfl | ⟨r₁, rfl⟩
      · exact ⟨[], Language.nil_mem_kstar _, n₁, (mem_kstar_false_iff _).2 (by simpa using h₁),
          by simp⟩
      · obtain ⟨n₂, r₂, h₂, rfl, hr₂⟩ := false_prefix_decomposition r₁
        simp only [List.count_append, List.count_cons, count_true_of_all_false n₁ h₁,
          count_true_of_all_false n₂ h₂] at h
        rcases hr₂ with rfl | ⟨r₃, rfl⟩
        · simp at h
        · have h3 : r₃.count true % 2 = 0 := by
            simp at h
            omega
          obtain ⟨g, hg, n, hn, rfl⟩ := ih r₃.length (by subst hlen; simp; omega) r₃ h3 rfl
          rw [Language.mem_kstar] at hg
          obtain ⟨L, rfl, hL⟩ := hg
          refine ⟨(n₁ ++ true :: (n₂ ++ [true])) ++ L.flatten, ?_, n, hn, by simp⟩
          rw [Language.mem_kstar]
          refine ⟨(n₁ ++ true :: (n₂ ++ [true])) :: L, by simp, ?_⟩
          intro y hy
          rcases List.mem_cons.1 hy with rfl | hy
          · exact (mem_group_iff _).2 ⟨n₁, n₂, h₁, h₂, rfl⟩
          · exact hL y hy

/-- The look-ahead succeeds exactly when the rest of the line holds an even
number of double quotes. -/
theorem lookaheadMatches_iff (rest : JsString) :
    lookaheadMatches rest = true ↔ rest.count '"' % 2 = 0 := by
  unfold lookaheadMatches
  rw [RegularExpression.rmatch_iff_matches', mem_lookahead_iff]
  have : (rest.map isQuote).count true = rest.count '"' := by
    induction rest with
    | nil => rfl
    | cons c rest ih =>
      by_cases hc : c = '"'
      · subst hc
        simp [isQuote, ih]
      · have h1 : (c == '"') = false := by simpa using hc
        simp [isQuote, List.count_cons, h1, ih]
  rw [this]

/-! ### Header detection and the empty table -/

/-- C2. Header detection: when the first non-blank line `L`, split on the
sniffed delimiter, has a cell whose trimmed text `parseFloat` reads as `NaN`,
`headers` is the list of trimmed cells of `L` and the rows come from the
non-blank lines after `L`; otherwise `headers` is `null` and `L` is the first
data row.  The two examples of the specification are included. -/
theorem parseCsv_header_detection (text L : JsString) (rest : List JsString)
    (hL : nonBlankLines (normalize text) = L :: rest) :
    ((∃ cell ∈ split (sniffDelimiter (normalize text)) L, parseFloatIsNaN (trim cell) = true) →
      parseCsv text =
        { headers := some ((split (sniffDelimiter (normalize text)) L).map trim),
          rows := rest.map (parseRow (sniffDelimiter (normalize text))) }) ∧
    ((∀ cell ∈ split (sniffDelimiter (normalize text)) L, parseFloatIsNaN (trim cell) = false) →
      parseCsv text =
        { headers := none,
          rows := parseRow (sniffDelimiter (normalize text)) L ::
            rest.map (parseRow (sniffDelimiter (normalize text))) }) ∧
    parseCsv "Name,Count\nX,1\nY,2".toList =
      { headers := some ["Name".toList, "Count".toList],
        rows := [["X".toList, "1".toList], ["Y".toList, "2".toList]] } ∧
    parseCsv "1,2\n3,4".toList =
      { headers := none,
        rows := [["1".toList, "2".toList], ["3".toList, "4".toList]] } := by
  refine ⟨?_, ?_, by decide, by decide⟩
  · intro h
    have hh : isHeaderRow (split (sniffDelimiter (normalize text)) L) = true := by
      simpa [isHeaderRow] using h
    simp [parseCsv, hL, hh]
  · intro h
    have hh : isHeaderRow (split (sniffDelimiter (normalize text)) L) = false := by
      simpa [isHeaderRow] using h
    simp [parseCsv, hL, hh]

theorem parseCsv_header_detection_witness :
    nonBlankLines (normalize "id;qty\n\n7;2".toList) = ["id;qty".toList, "7;2".toList] ∧
    (∃ cell ∈ split (sniffDelimiter (normalize "id;qty\n\n7;2".toList)) "id;qty".toList,
      parseFloatIsNaN (trim cell) = true) ∧
    parseCsv "id;qty\n\n7;2".toList =
      { headers := some ["id".toList, "qty".toList], rows := [["7".toList, "2".toList]] } :=
  ⟨by decide, ⟨"id".toList, by decide, by decide⟩,
    ((parseCsv_header_detection "id;qty\n\n7;2".toList "id;qty".toList ["7;2".toList]
      (by decide)).1 ⟨"id".toList, by decide, by decide⟩).trans (by decide)⟩

/-- C4, as the specification words it, fails on the empty text: the table
returned there has an empty array of headers, which is not the `null` that a
header-less numeric table carries. -/
theorem parseCsv_empty_headers_not_absent :
    (parseCsv "".toList).headers = some [] ∧
    (parseCsv "1,2".toList).headers = none ∧
    ¬ ((parseCsv "".toList).headers = none ∧ (parseCsv "".toList).rows = []) := by
  decide

/-- C4, amended. For every text whose lines are all blank after trimming (the
empty text included), `parseCsv` returns the table with `headers` the empty
array and `rows` the empty array. -/
theorem parseCsv_blank_text (text : JsString)
    (hblank : ∀ line ∈ split '\n' (normalize text), trim line = []) :
    parseCsv text = { headers := some [], rows := [] } := by
  have h : nonBlankLines (normalize text) = [] := by
    unfold nonBlankLines
    rw [List.filter_eq_nil_iff]
    intro line hline
    simp [hblank line hline]
  simp [parseCsv, h]

theorem parseCsv_blank_text_witness :
    (∀ line ∈ split '\n' (normalize " \r\n\t\n".toList), trim line = []) ∧
    parseCsv " \r\n\t\n".toList = { headers := some [], rows := [] } :=
  ⟨by decide, parseCsv_blank_text " \r\n\t\n".toList (by decide)⟩

/-! ### Cell cleanup -/

theorem stripEdgeQuotesFrom_false (s : JsString) :
    stripEdgeQuotesFrom false s = if s.getLast? = some '"' then s.dropLast else s := by
  induction s with
  | nil => simp [stripEdgeQuotesFrom]
  | cons c rest ih =>
    cases rest with
    | nil =>
      by_cases hc : c = '"'
      · subst hc
        simp [stripEdgeQuotesFrom]
      · simp [stripEdgeQuotesFrom, hc]
    | cons r rs =>
      have hstep : stripEdgeQuotesFrom false (c :: r :: rs)
          = c :: stripEdgeQuotesFrom false (r :: rs) := by
        rw [stripEdgeQuotesFrom]
        simp
      rw [hstep, ih, List.getLast?_cons_cons, List.dropLast_cons₂]
      split_ifs <;> rfl

/-- The replacement `/^"|"$/g` removes a leading double quote if there is one,
then a trailing double quote of what remains if there is one. -/
theorem stripEdgeQuotes_eq (t : JsString) :
    stripEdgeQuotes t =
      if (if t.head? = some '"' then t.drop 1 else t).getLast? = some '"' then
        (if t.head? = some '"' then t.drop 1 else t).dropLast
      else (if t.head? = some '"' then t.drop 1 else t) := by
  cases t with
  | nil => simp [stripEdgeQuotes, stripEdgeQuotesFrom]
  | cons c rest =>
    by_cases hc : c = '"'
    · subst hc
      simp [stripEdgeQuotes, stripEdgeQuotesFrom, stripEdgeQuotesFrom_false]
    · have h1 : (c == '"') = false := by simpa using hc
      simp only [stripEdgeQuotes, stripEdgeQuotesFrom, h1, Bool.false_and, Bool.false_eq_true,
        if_false, List.head?_cons, Option.some.injEq, hc]
      cases rest with
      | nil => simp [stripEdgeQuotesFrom, hc]
      | cons r rs =>
        rw [stripEdgeQuotesFrom_false, List.getLast?_cons_cons, List.dropLast_cons₂]
        split_ifs <;> rfl

/-- C5, as the specification words it, fails: a trimmed field that has a
leading double quote but no trailing one does not stay unchanged, its leading
quote is removed (and likewise a lone trailing quote). -/
theorem cleanCell_lone_quote_removed :
    ¬ (∀ field : JsString,
        ((trim field).head? ≠ some '"' ∨ (trim field).getLast? ≠ some '"') →
          cleanCell field = trim field) := by
  intro h
  have h1 := h "\"abc".toList (Or.inr (by decide))
  revert h1
  decide

/-- C5, amended. The two enclosing double quotes are removed independently of
each other: a trimmed field of at least two characters that starts and ends
with a double quote loses that pair; one that has neither keeps its text; one
that has only the leading or only the trailing double quote loses that one
quote; the field that is a single double quote becomes empty. -/
theorem cleanCell_enclosing_quotes (field : JsString) :
    ((trim field).head? = some '"' ∧ (trim field).getLast? = some '"' ∧
        2 ≤ (trim field).length → cleanCell field = ((trim field).drop 1).dropLast) ∧
    ((trim field).head? ≠ some '"' ∧ (trim field).getLast? ≠ some '"' →
        cleanCell field = trim field) ∧
    ((trim field).head? = some '"' ∧ (trim field).getLast? ≠ some '"' →
        cleanCell field = (trim field).drop 1) ∧
    ((trim field).head? ≠ some '"' ∧ (trim field).getLast? = some '"' →
        cleanCell field = (trim field).dropLast) ∧
    (trim field = ['"'] → cleanCell field = []) := by
  unfold cleanCell
  generalize trim field = t
  rw [stripEdgeQuotes_eq]
  refine ⟨?_, ?_, ?_, ?_, ?_⟩
  · rintro ⟨h1, h2, h3⟩
    rw [if_pos h1]
    have : (t.drop 1).getLast? = some '"' := by
      match t, h3 with
      | _ :: _ :: _, _ => rwa [List.drop_one, List.tail_cons, ← List.getLast?_cons_cons]
    rw [if_pos this]
  · rintro ⟨h1, h2⟩
    rw [if_neg h1, if_neg h2]
  · rintro ⟨h1, h2⟩
    rw [if_pos h1]
    have : ¬ (t.drop 1).getLast? = some '"' := by
      match t with
      | [] => simp
      | [_] => simp
      | _ :: _ :: _ => rwa [List.drop_one, List.tail_cons, ← List.getLast?_cons_cons]
    rw [if_neg this]
  · rintro ⟨h1, h2⟩
    rw [if_neg h1, if_pos h2]
  · rintro rfl
    rfl

theorem cleanCell_enclosing_quotes_witness :
    ((trim " \"b,c\" ".toList).head? = some '"' ∧ (trim " \"b,c\" ".toList).getLast? = some '"' ∧
        2 ≤ (trim " \"b,c\" ".toList).length) ∧
    cleanCell " \"b,c\" ".toList = "b,c".toList ∧
    cleanCell "\"abc".toList = "abc".toList ∧
    cleanCell "abc\"".toList = "abc".toList :=
  ⟨by decide,
    ((cleanCell_enclosing_quotes " \"b,c\" ".toList).1 (by decide)).trans (by decide),
    ((cleanCell_enclosing_quotes "\"abc".toList).2.2.1 (by decide)).trans (by decide),
    ((cleanCell_enclosing_quotes "abc\"".toList).2.2.2.1 (by decide)).trans (by decide)⟩

/-- C6. Cell cleanup: the cell is the trimmed field with at most one leading
and at most one trailing double quote removed and nothing else changed: the
trimmed field is `pre ++ cell ++ post` with `pre` and `post` each empty or a
single double quote, `pre` being the quote exactly when the trimmed field
starts with one and `post` exactly when what follows `pre` ends with one.
Inner and doubled quotes stay, and the inside is not trimmed again. -/
theorem cleanCell_strips_one_quote_each_side (field : JsString) :
    (∃ pre post : JsString, (pre = [] ∨ pre = ['"']) ∧ (post = [] ∨ post = ['"']) ∧
      trim field = pre ++ cleanCell field ++ post ∧
      (pre = ['"'] ↔ (trim field).head? = some '"') ∧
      (post = ['"'] ↔ ((trim field).drop pre.length).getLast? = some '"')) ∧
    cleanCell "\"a\"\"b\"".toList = "a\"\"b".toList ∧
    cleanCell "\"\"x\"\"".toList = "\"x\"".toList ∧
    cleanCell " \" x \" ".toList = " x ".toList := by
  refine ⟨?_, by decide, by decide, by decide⟩
  unfold cleanCell
  generalize trim field = t
  rw [stripEdgeQuotes_eq]
  by_cases h1 : t.head? = some '"'
  · obtain ⟨u, rfl⟩ : ∃ u, t = '"' :: u := by
      cases t with
      | nil => simp at h1
      | cons c u => exact ⟨u, by simpa using h1⟩
    simp only [List.head?_cons, if_true, List.drop_one, List.tail_cons]
    by_cases h2 : u.getLast? = some '"'
    · refine ⟨['"'], ['"'], Or.inr rfl, Or.inr rfl, ?_, by simp, by simpa using h2⟩
      rw [if_pos h2]
      obtain ⟨v, rfl⟩ : ∃ v, u = v ++ ['"'] := by
        rcases List.eq_nil_or_concat u with rfl | ⟨v, b, rfl⟩
        · simp at h2
        · exact ⟨v, by simpa using h2⟩
      simp
    · refine ⟨['"'], [], Or.inr rfl, Or.inl rfl, ?_, by simp, by simpa using h2⟩
      rw [if_neg h2]
      simp
  · simp only [if_neg h1]
    by_cases h2 : t.getLast? = some '"'
    · refine ⟨[], ['"'], Or.inl rfl, Or.inr rfl, ?_, by simpa using h1, by simpa using h2⟩
      rw [if_pos h2]
      obtain ⟨v, rfl⟩ : ∃ v, t = v ++ ['"'] := by
        rcases List.eq_nil_or_concat t with rfl | ⟨v, b, rfl⟩
        · simp at h2
        · exact ⟨v, by simpa using h2⟩
      simp
    · refine ⟨[], [], Or.inl rfl, Or.inl rfl, ?_, by simpa using h1, by simpa using h2⟩
      rw [if_neg h2]
      simp

/-! ### Quote-aware row splitting -/

theorem splitRegex_ne_nil (d : Char) (s : JsString) : splitRegex d s ≠ [] := by
  cases s with
  | nil => simp [splitRegex]
  | cons c rest =>
    rw [splitRegex]
    split_ifs
    · simp
    · cases hs : splitRegex d rest with
      | nil => exact absurd hs (splitRegex_ne_nil d rest)
      | cons p ps => simp [pushFront]

theorem cutAt_cons_succ (c : Char) (rest : JsString) (ps : List Nat) (start : Nat) :
    cutAt (c :: rest) (start + 1) (ps.map Nat.succ) = cutAt rest start ps := by
  induction ps generalizing start with
  | nil => simp [cutAt]
  | cons p ps ih => simp [cutAt, ih]

theorem cutAt_cons_zero (c : Char) (rest : JsString) (ps : List Nat) :
    cutAt (c :: rest) 0 (ps.map Nat.succ) = pushFront c (cutAt rest 0 ps) := by
  cases ps with
  | nil => simp [cutAt, pushFront]
  | cons p ps =>
    have := cutAt_cons_succ c rest ps (p + 1)
    simp only [cutAt, List.map_cons, Nat.succ_eq_add_one, pushFront] at this ⊢
    rw [this]
    simp

theorem splitPoints_cons (d c : Char) (rest : JsString) :
    splitPoints d (c :: rest) =
      if c == d && lookaheadMatches rest then 0 :: (splitPoints d rest).map Nat.succ
      else (splitPoints d rest).map Nat.succ := by
  have hl : lookaheadMatches rest = (rest.count '"' % 2 == 0) := by
    rw [Bool.eq_iff_iff, lookaheadMatches_iff]
    simp
  unfold splitPoints
  rw [List.length_cons, List.range_succ_eq_map, List.filter_cons, List.filter_map]
  have hf : ((fun i => (c :: rest).get? i == some d &&
        (List.drop (i + 1) (c :: rest)).count '"' % 2 == 0) ∘ Nat.succ)
      = fun i => rest.get? i == some d && (List.drop (i + 1) rest).count '"' % 2 == 0 := by
    funext i
    simp
  rw [hf, hl]
  simp

theorem splitRegex_eq_cutAt (d : Char) (line : JsString) :
    splitRegex d line = cutAt line 0 (splitPoints d line) := by
  induction line with
  | nil => simp [splitRegex, splitPoints, cutAt]
  | cons c rest ih =>
    rw [splitPoints_cons, splitRegex]
    split_ifs with h
    · have := cutAt_cons_succ c rest (splitPoints d rest) 0
      simp only [Nat.zero_add] at this
      simp [cutAt, this, ih]
    · rw [cutAt_cons_zero, ih]

/-- C3. Quote-aware row splitting: the pattern cuts a data line at exactly the
delimiter occurrences after which the rest of the line holds an even number of
double quotes (the cells are the pieces of the line between those positions),
and the row has one cell more than there are such positions, whatever the
number of headers; so the line `a,"b,c",d` under a two-column header gives the
three cells `a`, `b,c`, `d`. -/
theorem splitRegex_split_points (d : Char) (line : JsString) :
    splitRegex d line = cutAt line 0 (splitPoints d line) ∧
    (∀ i, i ∈ splitPoints d line ↔
      line.get? i = some d ∧ (line.drop (i + 1)).count '"' % 2 = 0) ∧
    (∀ rest, lookaheadMatches rest = true ↔ rest.count '"' % 2 = 0) ∧
    (parseRow d line).length = (splitPoints d line).length + 1 ∧
    parseCsv "x,y\na,\"b,c\",d".toList =
      { headers := some ["x".toList, "y".toList],
        rows := [["a".toList, "b,c".toList, "d".toList]] } := by
  refine ⟨splitRegex_eq_cutAt d line, ?_, lookaheadMatches_iff, ?_, by decide⟩
  · intro i
    simp only [splitPoints, List.mem_filter, List.mem_range, Bool.and_eq_true, beq_iff_eq]
    constructor
    · rintro ⟨_, h1, h2⟩
      exact ⟨h1, h2⟩
    · rintro ⟨h1, h2⟩
      refine ⟨?_, h1, h2⟩
      by_contra hlt
      rw [List.get?_eq_none.2 (Nat.le_of_not_lt hlt)] at h1
      exact absurd h1 (by simp)
  · rw [parseRow, List.length_map, splitRegex_eq_cutAt]
    generalize splitPoints d line = ps
    generalize 0 = start
    induction ps generalizing start with
    | nil => rfl
    | cons p ps ih => simp [cutAt, ih]

/-! ### Blank lines, row order and line endings -/

theorem parseCsv_rows_eq (text : JsString) :
    (parseCsv text).rows =
      ((nonBlankLines (normalize text)).drop (if headerDetected text then 1 else 0)).map
        (parseRow (sniffDelimiter (normalize text))) := by
  cases h : nonBlankLines (normalize text) with
  | nil => simp [parseCsv, headerDetected, h]
  | cons first rest =>
    by_cases hh : isHeaderRow (split (sniffDelimiter (normalize text)) first) = true
    · simp [parseCsv, headerDetected, h, hh]
    · simp [parseCsv, headerDetected, h, hh]

/-- C7. Blank-line skipping and row order: there are as many rows as the
normalised text has lines that are non-empty after trimming, less one when a
header is detected, and the `i`-th row is the parse of the `i`-th such line
after the header, in input order; `"a,b\n\n1,2\n\n"` has the one row `1`, `2`. -/
theorem parseCsv_rows_follow_nonblank_lines (text : JsString) :
    (parseCsv text).rows.length =
      (split '\n' (normalize text)).countP (fun line => trim line != [])
        - (if headerDetected text then 1 else 0) ∧
    (nonBlankLines (normalize text)).Sublist (split '\n' (normalize text)) ∧
    (∀ i, (parseCsv text).rows.get? i =
      ((nonBlankLines (normalize text)).get? (i + (if headerDetected text then 1 else 0))).map
        (parseRow (sniffDelimiter (normalize text)))) ∧
    (parseCsv "a,b\n\n1,2\n\n".toList).rows = [["1".toList, "2".toList]] := by
  refine ⟨?_, ?_, ?_, by decide⟩
  · rw [parseCsv_rows_eq, List.length_map, List.length_drop, List.countP_eq_length_filter]
    rfl
  · exact List.filter_sublist _
  · intro i
    rw [parseCsv_rows_eq]
    simp [List.getElem?_drop, Nat.add_comm]

theorem replaceCrLf_cons_of_ne (c : Char) (rest : JsString) (hc : c ≠ '\r') :
    replaceCrLf (c :: rest) = c :: replaceCrLf rest := by
  rw [replaceCrLf]
  intro rest' h1 h2
  exact absurd h1 hc

theorem replaceCrLf_append_of_no_cr (l s : JsString) (hl : '\r' ∉ l) :
    replaceCrLf (l ++ s) = l ++ replaceCrLf s := by
  induction l with
  | nil => rfl
  | cons c l ih =>
    have hc : c ≠ '\r' := fun h => hl (by simp [h])
    have hl' : '\r' ∉ l := fun h => hl (by simp [h])
    rw [List.cons_append, replaceCrLf_cons_of_ne c _ hc, ih hl', List.cons_append]

theorem replaceCr_of_no_cr (s : JsString) (hs : '\r' ∉ s) : replaceCr s = s := by
  unfold replaceCr
  induction s with
  | nil => rfl
  | cons c s ih =>
    have hc : c ≠ '\r' := fun h => hs (by simp [h])
    have hs' : '\r' ∉ s := fun h => hs (by simp [h])
    have := ih hs'
    simp only [List.map_cons, beq_iff_eq, hc, if_false] at this ⊢
    rw [this]

theorem normalize_of_no_cr (s : JsString) (hs : '\r' ∉ s) : normalize s = s := by
  unfold normalize
  have h := replaceCrLf_append_of_no_cr s [] hs
  have h0 : replaceCrLf [] = [] := rfl
  rw [h0, List.append_nil] at h
  rw [h, replaceCr_of_no_cr s hs]

theorem cr_not_mem_normalize (text : JsString) : '\r' ∉ normalize text := by
  unfold normalize replaceCr
  intro h
  obtain ⟨c, _, hc⟩ := List.mem_map.1 h
  by_cases h' : c = '\r'
  · simp [h'] at hc
  · simp [h'] at hc

theorem normalize_normalize (text : JsString) : normalize (normalize text) = normalize text :=
  normalize_of_no_cr _ (cr_not_mem_normalize text)

theorem replaceCrLf_of_no_lf (s : JsString) (hs : '\n' ∉ s) : replaceCrLf s = s := by
  induction s with
  | nil => rfl
  | cons c s ih =>
    have hs' : '\n' ∉ s := fun h => hs (by simp [h])
    cases s with
    | nil =>
      by_cases hc : c = '\r'
      · subst hc
        rfl
      · rw [replaceCrLf_cons_of_ne c _ hc]
        rfl
    | cons b s =>
      have hb : b ≠ '\n' := fun h => hs (by simp [h])
      rw [replaceCrLf]
      · rw [ih hs']
      · intro rest h1 h2
        simp only [List.cons.injEq] at h2
        exact hb h2.1

theorem intercalate_cons_cons (sep l l' : JsString) (ls : List JsString) :
    List.intercalate sep (l :: l' :: ls) = l ++ sep ++ List.intercalate sep (l' :: ls) := by
  simp [List.intercalate, List.intersperse]

theorem not_mem_intercalate (c : Char) (sep : JsString) (lines : List JsString)
    (hsep : c ∉ sep) (h : ∀ l ∈ lines, c ∉ l) : c ∉ List.intercalate sep lines := by
  induction lines with
  | nil => simp [List.intercalate]
  | cons l ls ih =>
    cases ls with
    | nil => simpa [List.intercalate] using h l (by simp)
    | cons l' ls =>
      rw [intercalate_cons_cons]
      have h1 := h l (by simp)
      have h2 := ih fun x hx => h x (List.mem_cons_of_mem _ hx)
      simp [h1, h2, hsep]

theorem normalize_intercalate_lf (lines : List JsString) (h : ∀ l ∈ lines, '\r' ∉ l) :
    normalize (List.intercalate ['\n'] lines) = List.intercalate ['\n'] lines :=
  normalize_of_no_cr _ (not_mem_intercalate '\r' _ lines (by decide) h)

theorem normalize_intercalate_crlf (lines : List JsString) (h : ∀ l ∈ lines, '\r' ∉ l) :
    normalize (List.intercalate ['\r', '\n'] lines) = List.intercalate ['\n'] lines := by
  have key : replaceCrLf (List.intercalate ['\r', '\n'] lines) = List.intercalate ['\n'] lines := by
    induction lines with
    | nil => rfl
    | cons l ls ih =>
      have hl := h l (by simp)
      cases ls with
      | nil =>
        have := replaceCrLf_append_of_no_cr l [] hl
        simpa [List.intercalate, replaceCrLf] using this
      | cons l' ls =>
        rw [intercalate_cons_cons, intercalate_cons_cons, List.append_assoc,
          replaceCrLf_append_of_no_cr _ _ hl]
        have : replaceCrLf (['\r', '\n'] ++ List.intercalate ['\r', '\n'] (l' :: ls))
            = '\n' :: replaceCrLf (List.intercalate ['\r', '\n'] (l' :: ls)) := by
          rw [List.cons_append, List.cons_append, List.nil_append, replaceCrLf]
        rw [this, ih fun x hx => h x (List.mem_cons_of_mem _ hx)]
        simp
  unfold normalize
  rw [key]
  exact replaceCr_of_no_cr _ (not_mem_intercalate '\r' _ lines (by decide) h)

theorem normalize_intercalate_cr (lines : List JsString) (h : ∀ l ∈ lines, '\r' ∉ l ∧ '\n' ∉ l) :
    normalize (List.intercalate ['\r'] lines) = List.intercalate ['\n'] lines := by
  unfold normalize
  rw [replaceCrLf_of_no_lf _ (not_mem_intercalate '\n' _ lines (by decide) fun l hl => (h l hl).2)]
  induction lines with
  | nil => rfl
  | cons l ls ih =>
    have hl := (h l (by simp)).1
    cases ls with
    | nil => simpa [List.intercalate] using replaceCr_of_no_cr l hl
    | cons l' ls =>
      have ih' := ih fun x hx => h x (List.mem_cons_of_mem _ hx)
      rw [intercalate_cons_cons, intercalate_cons_cons]
      unfold replaceCr at ih' ⊢
      rw [List.map_append, List.map_append, ih']
      have := replaceCr_of_no_cr l hl
      unfold replaceCr at this
      rw [this]
      rfl

theorem parseCsv_congr_normalize (a b : JsString) (h : normalize a = normalize b) :
    parseCsv a = parseCsv b := by
  simp only [parseCsv, h]

/-- C8. Line-ending independence: lines free of CR and LF give the same table
and the same sniffed delimiter whether they are joined with CR LF, with a lone
CR or with LF; and for every text, parsing the text and parsing its normalised
form give the same table and the same sniffed delimiter. -/
theorem parseCsv_line_ending_independent (lines : List JsString)
    (h : ∀ l ∈ lines, '\r' ∉ l ∧ '\n' ∉ l) :
    parseCsv (List.intercalate ['\r', '\n'] lines) = parseCsv (List.intercalate ['\n'] lines) ∧
    parseCsv (List.intercalate ['\r'] lines) = parseCsv (List.intercalate ['\n'] lines) ∧
    sniffDelimiter (normalize (List.intercalate ['\r', '\n'] lines))
      = sniffDelimiter (normalize (List.intercalate ['\n'] lines)) ∧
    sniffDelimiter (normalize (List.intercalate ['\r'] lines))
      = sniffDelimiter (normalize (List.intercalate ['\n'] lines)) ∧
    (∀ text : JsString, parseCsv (normalize text) = parseCsv text ∧
      sniffDelimiter (normalize (normalize text)) = sniffDelimiter (normalize text)) := by
  have hcr : ∀ l ∈ lines, '\r' ∉ l := fun l hl => (h l hl).1
  have e1 : normalize (List.intercalate ['\r', '\n'] lines)
      = normalize (List.intercalate ['\n'] lines) := by
    rw [normalize_intercalate_crlf lines hcr, normalize_intercalate_lf lines hcr]
  have e2 : normalize (List.intercalate ['\r'] lines)
      = normalize (List.intercalate ['\n'] lines) := by
    rw [normalize_intercalate_cr lines h, normalize_intercalate_lf lines hcr]
  refine ⟨parseCsv_congr_normalize _ _ e1, parseCsv_congr_normalize _ _ e2, by rw [e1], by rw [e2],
    fun text => ⟨parseCsv_congr_normalize _ _ (normalize_normalize text), ?_⟩⟩
  rw [normalize_normalize]

theorem parseCsv_line_ending_independent_witness :
    (∀ l ∈ ["k;v".toList, "".toList, "\"a;b\";2".toList], '\r' ∉ l ∧ '\n' ∉ l) ∧
    parseCsv "k;v\r\n\r\n\"a;b\";2".toList = parseCsv "k;v\n\n\"a;b\";2".toList ∧
    parseCsv "k;v\r\r\"a;b\";2".toList = parseCsv "k;v\n\n\"a;b\";2".toList ∧
    parseCsv "k;v\n\n\"a;b\";2".toList =
      { headers := some ["k".toList, "v".toList], rows := [["a;b".toList, "2".toList]] } :=
  ⟨by decide,
    (parseCsv_line_ending_independent ["k;v".toList, "".toList, "\"a;b\";2".toList]
      (by decide)).1,
    (parseCsv_line_ending_independent ["k;v".toList, "".toList, "\"a;b\";2".toList]
      (by decide)).2.1,
    by decide⟩

/-! ### `parseDataUrl` -/

theorem indexOf_eq_none_iff (c : Char) (s : JsString) : indexOf c s = none ↔ c ∉ s := by
  induction s with
  | nil => simp [indexOf]
  | cons x xs ih =>
    by_cases hx : x = c
    · subst hx
      simp [indexOf]
    · have h1 : (x == c) = false := by simpa using hx
      have h2 : ¬ c = x := fun h => hx h.symm
      simp [indexOf, h1, ih, h2]

theorem indexOf_append_cons (c : Char) (a b : JsString) (ha : c ∉ a) :
    indexOf c (a ++ c :: b) = some a.length := by
  induction a with
  | nil => simp [indexOf]
  | cons x xs ih =>
    have hx : (x == c) = false := by
      have : x ≠ c := fun h => ha (by simp [h])
      simpa using this
    have hxs : c ∉ xs := fun h => ha (by simp [h])
    simp [indexOf, hx, ih hxs]

theorem head?_split (sep : Char) (s : JsString) :
    (split sep s).head? = some (s.takeWhile fun c => c != sep) := by
  induction s with
  | nil => rfl
  | cons c rest ih =>
    by_cases hc : c = sep
    · subst hc
      simp [split]
    · have h1 : (c == sep) = false := by simpa using hc
      rw [split, if_neg (by simp [h1]), List.takeWhile_cons]
      cases hs : split sep rest with
      | nil => exact absurd hs (split_ne_nil sep rest)
      | cons p ps =>
        rw [hs] at ih
        simp only [List.head?_cons, Option.some.injEq] at ih
        simp [pushFront, hc, ih]

/-- The value of `parseDataUrl` on `data:` ++ header ++ `,` ++ payload when the
header has no comma. -/
theorem parseDataUrl_of_header (header payload : JsString) (h : ',' ∉ header) :
    parseDataUrl ("data:".toList ++ header ++ ',' :: payload) =
      Except.ok
        { mime := if header.takeWhile (fun c => c != ';') = [] then "text/plain".toList
                  else header.takeWhile fun c => c != ';'
          isBase64 := (split ';' header).contains "base64".toList
          payload := payload } := by
  have hpre : "data:".toList.isPrefixOf ("data:".toList ++ header ++ ',' :: payload) = true := by
    rw [List.isPrefixOf_iff_prefix, List.append_assoc]
    exact List.prefix_append _ _
  have hnot : ',' ∉ "data:".toList ++ header := by
    intro hm
    rcases List.mem_append.1 hm with hm | hm
    · revert hm
      decide
    · exact h hm
  have hidx := indexOf_append_cons ',' ("data:".toList ++ header) payload hnot
  have hlen : ("data:".toList ++ header).length = 5 + header.length := by
    rw [List.length_append]
    rfl
  rw [hlen] at hidx
  have hsub : substring ("data:".toList ++ header ++ ',' :: payload) 5 (5 + header.length)
      = header := by
    unfold substring
    rw [Nat.max_eq_right (Nat.le_add_right _ _), Nat.min_eq_left (Nat.le_add_right _ _),
      ← hlen, List.take_left']
    · show List.drop 5 ("data:".toList ++ header) = header
      rfl
    · rfl
  have hdrop : List.drop (5 + header.length + 1) ("data:".toList ++ header ++ ',' :: payload)
      = payload := by
    rw [← hlen]
    have : ("data:".toList ++ header ++ ',' :: payload)
        = ("data:".toList ++ header ++ [',']) ++ payload := by simp
    rw [this, List.drop_left']
    simp
  simp only [parseDataUrl, hpre, hidx, hsub, hdrop, head?_split]
  by_cases he : header.takeWhile (fun c => c != ';') = []
  · simp [he]
  · simp [he]

/-- C9. For a source `data:` ++ header ++ `,` ++ payload whose header has no
comma, `parseDataUrl` succeeds; its payload is everything after that first
comma, its mime is the first `;`-separated segment of the header (the header
up to its first `;`), or `text/plain` when that segment is empty, and
`isBase64` holds exactly when some `;`-separated segment is `base64`. -/
theorem parseDataUrl_result (header payload : JsString) (h : ',' ∉ header) :
    ∃ r, parseDataUrl ("data:".toList ++ header ++ ',' :: payload) = Except.ok r ∧
      r.payload = payload ∧
      (split ';' header).head? = some (header.takeWhile fun c => c != ';') ∧
      r.mime = (if header.takeWhile (fun c => c != ';') = [] then "text/plain".toList
                else header.takeWhile fun c => c != ';') ∧
      (r.isBase64 = true ↔ "base64".toList ∈ split ';' header) := by
  exact ⟨_, parseDataUrl_of_header header payload h, rfl, head?_split ';' header, rfl, by simp⟩

theorem parseDataUrl_result_witness :
    ',' ∉ "text/csv;charset=utf-8;base64".toList ∧
    (∃ r, parseDataUrl "data:text/csv;charset=utf-8;base64,QUJD,REVG".toList = Except.ok r ∧
      r.payload = "QUJD,REVG".toList ∧
      (split ';' "text/csv;charset=utf-8;base64".toList).head? = some "text/csv".toList ∧
      r.mime = "text/csv".toList ∧
      (r.isBase64 = true ↔
        "base64".toList ∈ split ';' "text/csv;charset=utf-8;base64".toList)) ∧
    parseDataUrl "data:;base64x,a%2Cb".toList =
      Except.ok { mime := "text/plain".toList, isBase64 := false, payload := "a%2Cb".toList } :=
  ⟨by decide,
    parseDataUrl_result "text/csv;charset=utf-8;base64".toList "QUJD,REVG".toList (by decide),
    by rfl⟩

/-- C10. `parseDataUrl` fails exactly when the source does not begin with
`data:` or contains no comma.  A source that begins with `data:` and has no
comma is rejected with the error `Invalid data URL format` (the format error
of the specification), one that does not begin with `data:` with the error
`Invalid data URL`. -/
theorem parseDataUrl_fails_iff (url : JsString) :
    ((∃ msg, parseDataUrl url = Except.error msg) ↔
      (¬ "data:".toList <+: url ∨ ',' ∉ url)) ∧
    ("data:".toList <+: url → ',' ∉ url →
      parseDataUrl url = Except.error "Invalid data URL format") ∧
    (¬ "data:".toList <+: url → parseDataUrl url = Except.error "Invalid data URL") := by
  have hno : ¬ "data:".toList <+: url → parseDataUrl url = Except.error "Invalid data URL" := by
    intro hp
    have : "data:".toList.isPrefixOf url = false := by
      rw [Bool.eq_false_iff]
      intro h
      exact hp (List.isPrefixOf_iff_prefix.1 h)
    simp only [parseDataUrl, this, Bool.not_false, if_true]
  have hcomma : "data:".toList <+: url → ',' ∉ url →
      parseDataUrl url = Except.error "Invalid data URL format" := by
    intro hp hc
    have h1 : "data:".toList.isPrefixOf url = true := List.isPrefixOf_iff_prefix.2 hp
    have h2 := (indexOf_eq_none_iff ',' url).2 hc
    simp only [parseDataUrl, h1, h2, Bool.not_true, Bool.false_eq_true, if_false]
  refine ⟨⟨?_, ?_⟩, hcomma, hno⟩
  · rintro ⟨msg, hmsg⟩
    by_contra hcon
    rw [not_or, not_not, not_not] at hcon
    obtain ⟨hp, hc⟩ := hcon
    have h1 : "data:".toList.isPrefixOf url = true := List.isPrefixOf_iff_prefix.2 hp
    cases hi : indexOf ',' url with
    | none => exact absurd hc ((indexOf_eq_none_iff ',' url).1 hi)
    | some i =>
      simp only [parseDataUrl, h1, hi, Bool.not_true, Bool.false_eq_true, if_false] at hmsg
      exact absurd hmsg (by simp)
  · rintro (hp | hc)
    · exact ⟨_, hno hp⟩
    · by_cases hp : "data:".toList <+: url
      · exact ⟨_, hcomma hp hc⟩
      · exact ⟨_, hno hp⟩

theorem parseDataUrl_fails_iff_witness :
    "data:".toList <+: "data:text/csv;base64".toList ∧ ',' ∉ "data:text/csv;base64".toList ∧
    parseDataUrl "data:text/csv;base64".toList = Except.error "Invalid data URL format" ∧
    parseDataUrl "a,b".toList = Except.error "Invalid data URL" :=
  ⟨by decide, by decide,
    (parseDataUrl_fails_iff "data:text/csv;base64".toList).2.1 (by decide) (by decide),
    (parseDataUrl_fails_iff "a,b".toList).2.2 (by decide)⟩

/-! ### The decode step of `processSalesData` -/

theorem includes_iff (s needle : JsString) : includes s needle = true ↔ needle <:+: s := by
  unfold includes
  rw [List.any_eq_true, List.infix_iff_prefix_suffix]
  constructor
  · rintro ⟨t, ht, hp⟩
    exact ⟨t, List.isPrefixOf_iff_prefix.1 hp, (List.mem_tails _ _).1 ht⟩
  · rintro ⟨t, hp, ht⟩
    exact ⟨t, (List.mem_tails _ _).2 ht, List.isPrefixOf_iff_prefix.2 hp⟩

theorem decodeDataUrl_of_parsed (url : JsString) (parsed : DataUrl)
    (h : parseDataUrl url = Except.ok parsed) :
    decodeDataUrl url =
      if includes parsed.mime "csv".toList = true then
        (if parsed.isBase64 = true then decodeBase64ToText parsed.payload
          else decodeURIComponent parsed.payload)
      else Except.error "Invalid MIME type for CSV data" := by
  unfold decodeDataUrl
  rw [h]
  cases hm : includes parsed.mime "csv".toList
  · simp only [hm, Bool.not_false, if_true, Bool.false_eq_true, if_false]
  · simp only [hm, Bool.not_true, Bool.false_eq_true, if_false, if_true]

/-- C11. MIME gate of the decode step: for every `data:` source that
`parseDataUrl` accepts, decoding fails with `Invalid MIME type for CSV data`
when the parsed mime does not contain `csv`, and when it does the result is
that of `decodeBase64ToText` on the payload if `isBase64` and of
`decodeURIComponent` on it otherwise; so a text is obtained only when the mime
contains `csv`, and every source whose MIME segment is empty is rejected. -/
theorem decodeDataUrl_mime_gate (url : JsString) (parsed : DataUrl)
    (h : parseDataUrl url = Except.ok parsed) :
    (¬ "csv".toList <:+: parsed.mime →
      decodeDataUrl url = Except.error "Invalid MIME type for CSV data") ∧
    ("csv".toList <:+: parsed.mime →
      decodeDataUrl url =
        if parsed.isBase64 = true then decodeBase64ToText parsed.payload
        else decodeURIComponent parsed.payload) ∧
    (∀ text, decodeDataUrl url = Except.ok text → "csv".toList <:+: parsed.mime) ∧
    (∀ header payload : JsString, ',' ∉ header → header.takeWhile (fun c => c != ';') = [] →
      decodeDataUrl ("data:".toList ++ header ++ ',' :: payload) =
        Except.error "Invalid MIME type for CSV data") := by
  have key := decodeDataUrl_of_parsed url parsed h
  refine ⟨?_, ?_, ?_, ?_⟩
  · intro hn
    have : ¬ includes parsed.mime "csv".toList = true := fun hi => hn ((includes_iff _ _).1 hi)
    rw [key, if_neg this]
  · intro hy
    rw [key, if_pos ((includes_iff _ _).2 hy)]
  · intro text ht
    by_contra hn
    have : ¬ includes parsed.mime "csv".toList = true := fun hi => hn ((includes_iff _ _).1 hi)
    rw [key, if_neg this] at ht
    exact absurd ht (by simp)
  · intro header payload hc he
    have hp := parseDataUrl_of_header header payload hc
    rw [decodeDataUrl_of_parsed _ _ hp]
    simp only [he, if_true]
    rfl

theorem decodeDataUrl_mime_gate_witness :
    parseDataUrl "data:text/plain;base64,QUJD".toList =
      Except.ok { mime := "text/plain".toList, isBase64 := true, payload := "QUJD".toList } ∧
    ¬ "csv".toList <:+: "text/plain".toList ∧
    decodeDataUrl "data:text/plain;base64,QUJD".toList =
      Except.error "Invalid MIME type for CSV data" ∧
    decodeDataUrl "data:text/csv,a%2Cb".toList = Except.ok "a,b".toList ∧
    decodeDataUrl "data:,a%2Cb".toList = Except.error "Invalid MIME type for CSV data" :=
  ⟨by rfl, by decide,
    (decodeDataUrl_mime_gate "data:text/plain;base64,QUJD".toList
      { mime := "text/plain".toList, isBase64 := true, payload := "QUJD".toList }
      (by rfl)).1 (by decide),
    by rfl, by rfl⟩

/-- C12, as the specification words it, fails: the source `data:;base64,@@@`
is rejected, but by the MIME gate (its mime defaults to `text/plain`), not
with the base64 error, and a well-formed payload is rejected in the same
way; `decodeBase64ToText` is never reached for such a source. -/
theorem decodeDataUrl_empty_mime_not_base64_error :
    atob "@@@".toList = none ∧
    decodeDataUrl "data:;base64,@@@".toList = Except.error "Invalid MIME type for CSV data" ∧
    decodeDataUrl "data:;base64,@@@".toList ≠ Except.error "Failed to decode base64 data" ∧
    decodeBase64ToText "QUJD".toList = Except.ok "ABC".toList ∧
    decodeDataUrl "data:;base64,QUJD".toList = Except.error "Invalid MIME type for CSV data" := by
  refine ⟨by decide, by rfl, ?_, by rfl, by rfl⟩
  have h : decodeDataUrl "data:;base64,@@@".toList
      = Except.error "Invalid MIME type for CSV data" := by rfl
  rw [h]
  intro hc
  injection hc with hc
  revert hc
  decide

theorem mem_dropLast_of_ne (c x : Char) (l : JsString) (hl : l.getLast? = some x) (hc : c ∈ l)
    (hne : c ≠ x) : c ∈ l.dropLast := by
  rcases List.eq_nil_or_concat l with rfl | ⟨l', b, rfl⟩
  · simp at hc
  · have hb : b = x := by simpa using hl
    subst hb
    rw [List.concat_eq_append] at hc ⊢
    rw [List.dropLast_concat]
    rcases List.mem_append.1 hc with h | h
    · exact h
    · exact absurd (by simpa using h) hne

theorem mem_stripBase64Padding (c : Char) (l : JsString) (hc : c ∈ l) (hne : c ≠ '=') :
    c ∈ stripBase64Padding l := by
  unfold stripBase64Padding
  split_ifs with h1 h2 h3
  · have h2' : l.getLast? = some '=' := by simpa using h2
    have h3' : l.dropLast.getLast? = some '=' := by simpa using h3
    exact mem_dropLast_of_ne c '=' _ h3' (mem_dropLast_of_ne c '=' _ h2' hc hne) hne
  · have h2' : l.getLast? = some '=' := by simpa using h2
    exact mem_dropLast_of_ne c '=' _ h2' hc hne
  · exact hc
  · exact hc

/-- A payload holding a character that is neither ASCII white space, nor `=`,
nor in the base64 alphabet is rejected by `atob`. -/
theorem atob_none_of_foreign_char (payload : JsString) (c : Char) (hc : c ∈ payload)
    (hws : isAsciiWhitespace c = false) (heq : c ≠ '=') (hal : c ∉ base64Alphabet) :
    atob payload = none := by
  have hmem : c ∈ stripBase64Padding (payload.filter fun c => !isAsciiWhitespace c) := by
    apply mem_stripBase64Padding _ _ _ heq
    rw [List.mem_filter]
    exact ⟨hc, by simp [hws]⟩
  have hall : (stripBase64Padding (payload.filter fun c => !isAsciiWhitespace c)).all
      (fun c => base64Alphabet.contains c) = false := by
    rw [Bool.eq_false_iff]
    intro hall
    rw [List.all_eq_true] at hall
    have := hall c hmem
    exact hal (by simpa using this)
  unfold atob
  simp only [hall]
  split_ifs with h1 h2
  · rfl
  · exact absurd h2 (by simp)
  · rfl

/-- C12, amended. For every payload, well-formed base64 or not, decoding the
source `data:;base64,` ++ payload raises an error and yields no text: the
MIME-type error, since the empty MIME segment defaults to `text/plain`.  The
base64 error belongs to sources whose mime contains `csv`: when `atob` rejects
the payload (as it does for every payload holding a character outside the
base64 alphabet, `=` and ASCII white space), `decodeBase64ToText` fails with
`Failed to decode base64 data`, and so does decoding
`data:text/csv;base64,` ++ payload. -/
theorem decodeDataUrl_bad_base64 (payload : JsString) :
    decodeDataUrl ("data:;base64,".toList ++ payload) =
      Except.error "Invalid MIME type for CSV data" ∧
    (atob payload = none →
      decodeBase64ToText payload = Except.error "Failed to decode base64 data" ∧
      decodeDataUrl ("data:text/csv;base64,".toList ++ payload) =
        Except.error "Failed to decode base64 data") ∧
    ((∃ c ∈ payload, isAsciiWhitespace c = false ∧ c ≠ '=' ∧ c ∉ base64Alphabet) →
      atob payload = none) := by
  refine ⟨?_, ?_, ?_⟩
  · have hp := parseDataUrl_of_header ";base64".toList payload (by decide)
    have he : ("data:".toList ++ ";base64".toList ++ ',' :: payload)
        = "data:;base64,".toList ++ payload := rfl
    rw [he] at hp
    rw [decodeDataUrl_of_parsed _ _ hp]
    rfl
  · intro ha
    have hd : decodeBase64ToText payload = Except.error "Failed to decode base64 data" := by
      unfold decodeBase64ToText
      rw [ha]
    refine ⟨hd, ?_⟩
    have hp := parseDataUrl_of_header "text/csv;base64".toList payload (by decide)
    have he : ("data:".toList ++ "text/csv;base64".toList ++ ',' :: payload)
        = "data:text/csv;base64,".toList ++ payload := rfl
    rw [he] at hp
    rw [decodeDataUrl_of_parsed _ _ hp]
    exact hd
  · rintro ⟨c, hc, hws, heq, hal⟩
    exact atob_none_of_foreign_char payload c hc hws heq hal

theorem decodeDataUrl_bad_base64_witness :
    atob "QU@D".toList = none ∧
    (∃ c ∈ "QU@D".toList, isAsciiWhitespace c = false ∧ c ≠ '=' ∧ c ∉ base64Alphabet) ∧
    decodeDataUrl "data:;base64,QU@D".toList = Except.error "Invalid MIME type for CSV data" ∧
    decodeDataUrl "data:text/csv;base64,QU@D".toList =
      Except.error "Failed to decode base64 data" :=
  ⟨(decodeDataUrl_bad_base64 "QU@D".toList).2.2 ⟨'@', by decide, by decide, by decide, by decide⟩,
    ⟨'@', by decide, by decide, by decide, by decide⟩,
    (decodeDataUrl_bad_base64 "QU@D".toList).1,
    ((decodeDataUrl_bad_base64 "QU@D".toList).2.1 (by decide)).2⟩

set_option maxRecDepth 100000 in
/-- C13. Worked example: decoding the attachment URL of the script yields the
text `Products,Sales\nPhones,1000\nBooks,123.45\nNotebooks,111.11\n`, and
`parseCsv` of that text yields the headers `Products`, `Sales` and the rows
`Phones` `1000`, `Books` `123.45`, `Notebooks` `111.11`. -/
theorem worked_example_decode_then_parse :
    attachmentUrl = ("data:text/csv;base64," ++
      "UHJvZHVjdHMsU2FsZXMKUGhvbmVzLDEwMDAKQm9va3MsMTIzLjQ1Ck5vdGVib29rcywxMTEuMTEK").toList ∧
    decodeDataUrl attachmentUrl =
      Except.ok "Products,Sales\nPhones,1000\nBooks,123.45\nNotebooks,111.11\n".toList ∧
    parseCsv "Products,Sales\nPhones,1000\nBooks,123.45\nNotebooks,111.11\n".toList =
      { headers := some ["Products".toList, "Sales".toList],
        rows := [["Phones".toList, "1000".toList], ["Books".toList, "123.45".toList],
                 ["Notebooks".toList, "111.11".toList]] } := by
  refine ⟨rfl, by rfl, by decide⟩

/-! ### Column inference -/

theorem findIndex_eq_none (p : JsString → Bool) (hs : List JsString)
    (h : ∀ x ∈ hs, p x = false) : findIndex p hs = none := by
  induction hs with
  | nil => rfl
  | cons x xs ih =>
    have hx := h x (List.mem_cons_self _ _)
    have := ih fun y hy => h y (List.mem_cons_of_mem _ hy)
    simp [findIndex, hx, this]

theorem findIndex_eq_some (p : JsString → Bool) (hs : List JsString) (i : Nat) (x : JsString)
    (hi : hs.get? i = some x) (hp : p x = true)
    (hfirst : ∀ j y, j < i → hs.get? j = some y → p y = false) :
    findIndex p hs = some i := by
  induction hs generalizing i with
  | nil => simp at hi
  | cons a as ih =>
    cases i with
    | zero =>
      have : a = x := by simpa using hi
      subst this
      simp [findIndex, hp]
    | succ k =>
      have ha : p a = false := hfirst 0 a (Nat.succ_pos _) rfl
      have hk : as.get? k = some x := by simpa using hi
      have := ih k hk fun j y hj hy => hfirst (j + 1) y (Nat.succ_lt_succ hj) (by simpa using hy)
      simp [findIndex, ha, this]

theorem isSalesHeader_iff (header : JsString) :
    isSalesHeader header = true ↔ "sale".toList <:+: toLowerCase header := by
  unfold isSalesHeader
  rw [Bool.or_eq_true, includes_iff, includes_iff]
  constructor
  · rintro (h | h)
    · exact List.IsInfix.trans (by decide) h
    · exact h
  · exact Or.inr

theorem isSalesHeader_eq_false (header : JsString)
    (h : ¬ "sale".toList <:+: toLowerCase header) : isSalesHeader header = false := by
  rw [Bool.eq_false_iff]
  exact fun hs => h ((isSalesHeader_iff header).1 hs)

theorem isProductHeader_eq_false (header : JsString)
    (h : ¬ "product".toList <:+: toLowerCase header) : isProductHeader header = false := by
  rw [Bool.eq_false_iff]
  exact fun hs => h ((includes_iff _ _).1 hs)

/-- C15. Column inference: the value column is the position of the first
header whose lower-cased text contains `sale`, and 1 when `headers` is `null`
or no header does; the label column is the position of the first header whose
lower-cased text contains `product`, and 0 when `headers` is `null` or no
header does. -/
theorem column_inference (headers : Option (List JsString)) :
    (headers = none → salesColumnIndex headers = 1 ∧ productColumnIndex headers = 0) ∧
    (∀ hs, headers = some hs →
      (∀ i h, hs.get? i = some h → "sale".toList <:+: toLowerCase h →
        (∀ j h', j < i → hs.get? j = some h' → ¬ "sale".toList <:+: toLowerCase h') →
        salesColumnIndex headers = i) ∧
      ((∀ h ∈ hs, ¬ "sale".toList <:+: toLowerCase h) → salesColumnIndex headers = 1) ∧
      (∀ i h, hs.get? i = some h → "product".toList <:+: toLowerCase h →
        (∀ j h', j < i → hs.get? j = some h' → ¬ "product".toList <:+: toLowerCase h') →
        productColumnIndex headers = i) ∧
      ((∀ h ∈ hs, ¬ "product".toList <:+: toLowerCase h) → productColumnIndex headers = 0)) := by
  refine ⟨?_, ?_⟩
  · rintro rfl
    exact ⟨rfl, rfl⟩
  · rintro hs rfl
    refine ⟨?_, ?_, ?_, ?_⟩
    · intro i h hi hs' hfirst
      have := findIndex_eq_some isSalesHeader hs i h hi ((isSalesHeader_iff h).2 hs')
        fun j y hj hy => isSalesHeader_eq_false y (hfirst j y hj hy)
      simp [salesColumnIndex, this]
    · intro hnone
      have := findIndex_eq_none isSalesHeader hs fun x hx => isSalesHeader_eq_false x (hnone x hx)
      simp [salesColumnIndex, this]
    · intro i h hi hs' hfirst
      have := findIndex_eq_some isProductHeader hs i h hi ((includes_iff _ _).2 hs')
        fun j y hj hy => isProductHeader_eq_false y (hfirst j y hj hy)
      simp [productColumnIndex, this]
    · intro hnone
      have := findIndex_eq_none isProductHeader hs
        fun x hx => isProductHeader_eq_false x (hnone x hx)
      simp [productColumnIndex, this]

theorem column_inference_witness :
    salesColumnIndex (some ["Region".toList, "PRODUCT name".toList, "Net Sales".toList]) = 2 ∧
    productColumnIndex (some ["Region".toList, "PRODUCT name".toList, "Net Sales".toList]) = 1 ∧
    salesColumnIndex (some ["a".toList, "b".toList]) = 1 ∧
    salesColumnIndex none = 1 ∧ productColumnIndex none = 0 :=
  ⟨((column_inference (some ["Region".toList, "PRODUCT name".toList, "Net Sales".toList])).2
      _ rfl).1 2 "Net Sales".toList (by decide) (by decide)
      (by
        intro j h' hj hget
        interval_cases j <;> simp at hget <;> subst hget <;> decide),
    ((column_inference (some ["Region".toList, "PRODUCT name".toList, "Net Sales".toList])).2
      _ rfl).2.2.1 1 "PRODUCT name".toList (by decide) (by decide)
      (by
        intro j h' hj hget
        interval_cases j
        simp at hget
        subst hget
        decide),
    ((column_inference (some ["a".toList, "b".toList])).2 _ rfl).2.1 (by decide),
    ((column_inference none).1 rfl).1, ((column_inference none).1 rfl).2⟩

/-! ### The look-ahead split and the two-state scanner -/

theorem splitRegex_eq_scanSplit_aux (d : Char) (hd : d ≠ '"') (line : JsString) (inside : Bool)
    (h : inside = true ↔ line.count '"' % 2 = 1) :
    splitRegex d line = scanSplit d inside line := by
  induction line generalizing inside with
  | nil => rfl
  | cons c rest ih =>
    by_cases hc : c = '"'
    · subst hc
      have hne : (('"' : Char) == d) = false := by
        rw [beq_eq_false_iff_ne]
        exact fun h' => hd h'.symm
      have hrest : (!inside) = true ↔ rest.count '"' % 2 = 1 := by
        rw [List.count_cons_self] at h
        cases inside
        · simp only [Bool.not_false, true_iff]
          have : ¬ (rest.count '"' + 1) % 2 = 1 := fun h' => by simpa using h.2 h'
          omega
        · simp only [Bool.not_true, Bool.false_eq_true, false_iff]
          have := h.1 rfl
          omega
      rw [splitRegex, scanSplit, ih _ hrest]
      simp [hne]
    · have hq : (c == '"') = false := by simpa using hc
      have hcount : (c :: rest).count '"' = rest.count '"' := by
        rw [List.count_cons, hq]
        simp
      rw [hcount] at h
      have hla : lookaheadMatches rest = !inside := by
        rw [Bool.eq_iff_iff, lookaheadMatches_iff]
        cases inside
        · simp only [Bool.not_false, iff_true]
          have : ¬ rest.count '"' % 2 = 1 := fun h' => by simpa using h.2 h'
          omega
        · simp only [Bool.not_true, Bool.false_eq_true, iff_false]
          have := h.1 rfl
          omega
      rw [splitRegex, scanSplit, ih _ h, hla]
      simp [hq]

/-- C17, as the specification words it, fails: on a line with an odd number of
double quotes the pattern and the scanner disagree; for `a,"b` the pattern
does not cut at the comma (an odd number of quotes follows it) while the
scanner, still outside quotes there, does. -/
theorem splitRegex_ne_scanSplit_odd_quotes :
    splitRegex ',' "a,\"b".toList = ["a,\"b".toList] ∧
    scanSplit ',' false "a,\"b".toList = ["a".toList, "\"b".toList] ∧
    ¬ (∀ (d : Char) (line : JsString), d ∈ delimiters →
        splitRegex d line = scanSplit d false line) := by
  refine ⟨by decide, by decide, ?_⟩
  intro h
  have := h ',' "a,\"b".toList (by decide)
  revert this
  decide

/-- C17, amended. For every delimiter candidate and every data line that holds
an even number of double quotes, the cells produced by the pattern are those
produced by the two-state scanner started outside quotes, before and after
the cell cleanup. -/
theorem splitRegex_eq_scanSplit (d : Char) (line : JsString) (hd : d ∈ delimiters)
    (heven : line.count '"' % 2 = 0) :
    splitRegex d line = scanSplit d false line ∧
    parseRow d line = (scanSplit d false line).map cleanCell := by
  have hne : d ≠ '"' := by
    rintro rfl
    revert hd
    decide
  have key := splitRegex_eq_scanSplit_aux d hne line false (by simp; omega)
  exact ⟨key, by rw [parseRow, key]⟩

theorem splitRegex_eq_scanSplit_witness :
    ';' ∈ delimiters ∧ "a;\"b;c\";d".toList.count '"' % 2 = 0 ∧
    splitRegex ';' "a;\"b;c\";d".toList = scanSplit ';' false "a;\"b;c\";d".toList ∧
    scanSplit ';' false "a;\"b;c\";d".toList = ["a".toList, "\"b;c\"".toList, "d".toList] :=
  ⟨by decide, by decide,
    (splitRegex_eq_scanSplit ';' "a;\"b;c\";d".toList (by decide) (by decide)).1, by decide⟩

/-! ### Header cells -/

theorem parseCsv_cons (text L : JsString) (rest : List JsString)
    (hL : nonBlankLines (normalize text) = L :: rest) :
    parseCsv text =
      if isHeaderRow (split (sniffDelimiter (normalize text)) L) = true then
        { headers := some ((split (sniffDelimiter (normalize text)) L).map trim),
          rows := rest.map (parseRow (sniffDelimiter (normalize text))) }
      else
        { headers := none,
          rows := (L :: rest).map (parseRow (sniffDelimiter (normalize text))) } := by
  by_cases hh : isHeaderRow (split (sniffDelimiter (normalize text)) L) = true
  · simp [parseCsv, hL, hh]
  · simp [parseCsv, hL, hh]

theorem count_dropWhile_of_false (p : Char → Bool) (c : Char) (hc : p c = false)
    (l : JsString) : (l.dropWhile p).count c = l.count c := by
  induction l with
  | nil => rfl
  | cons x xs ih =>
    rw [List.dropWhile_cons]
    split_ifs with hx
    · have hne : (x == c) = false := by
        rw [beq_eq_false_iff_ne]
        rintro rfl
        rw [hc] at hx
        exact absurd hx (by simp)
      rw [ih, List.count_cons, hne]
      simp
    · rfl

theorem count_trim (c : Char) (hc : isJsWhitespace c = false) (s : JsString) :
    (trim s).count c = s.count c := by
  unfold trim
  rw [List.count_reverse, count_dropWhile_of_false _ c hc, List.count_reverse,
    count_dropWhile_of_false _ c hc]

/-- C19. Header cells are split without quote awareness and keep their quotes:
when a header is detected on the first non-blank line `L`, `headers` is the
list of the trimmed pieces of the plain split of `L` on the sniffed delimiter,
one more than the delimiter occurs in `L`, and trimming leaves every double
quote of a piece in place; `"a,b",c` as a header gives the three cells `"a`,
`b"`, `c`, while as a data line it gives the two cells `a,b` and `c`. -/
theorem parseCsv_headers_plain_split (text L : JsString) (rest : List JsString)
    (hL : nonBlankLines (normalize text) = L :: rest) (hdet : headerDetected text = true) :
    (parseCsv text).headers = some ((split (sniffDelimiter (normalize text)) L).map trim) ∧
    ((split (sniffDelimiter (normalize text)) L).map trim).length
      = L.count (sniffDelimiter (normalize text)) + 1 ∧
    (∀ piece : JsString, (trim piece).count '"' = piece.count '"') ∧
    (parseCsv "\"a,b\",c\n1,2".toList).headers
      = some ["\"a".toList, "b\"".toList, "c".toList] ∧
    parseRow ',' "\"a,b\",c".toList = ["a,b".toList, "c".toList] := by
  have hh : isHeaderRow (split (sniffDelimiter (normalize text)) L) = true := by
    simpa [headerDetected, hL] using hdet
  refine ⟨?_, ?_, count_trim '"' (by decide), by decide, by decide⟩
  · rw [parseCsv_cons text L rest hL, if_pos hh]
  · rw [List.length_map, length_split]

theorem parseCsv_headers_plain_split_witness :
    nonBlankLines (normalize "\"k;1\"; v \n2;3".toList) = ["\"k;1\"; v ".toList, "2;3".toList] ∧
    headerDetected "\"k;1\"; v \n2;3".toList = true ∧
    (parseCsv "\"k;1\"; v \n2;3".toList).headers
      = some ["\"k".toList, "1\"".toList, "v".toList] :=
  ⟨by decide, by decide,
    ((parseCsv_headers_plain_split "\"k;1\"; v \n2;3".toList "\"k;1\"; v ".toList ["2;3".toList]
      (by decide) (by decide)).1).trans (by decide)⟩

/-- C20. An empty cell forces header classification: when the first non-blank
line `L`, split on the sniffed delimiter, has a cell that is empty or only
white space, `parseCsv` takes `L` as the header and leaves it out of the rows,
whatever the other cells are; `"1,,3\n4,5,6"` gives the headers `1`, ``, `3`
and the single row `4`, `5`, `6`. -/
theorem parseCsv_empty_cell_forces_header (text L : JsString) (rest : List JsString)
    (hL : nonBlankLines (normalize text) = L :: rest)
    (hcell : ∃ cell ∈ split (sniffDelimiter (normalize text)) L, trim cell = []) :
    headerDetected text = true ∧
    parseCsv text =
      { headers := some ((split (sniffDelimiter (normalize text)) L).map trim),
        rows := rest.map (parseRow (sniffDelimiter (normalize text))) } ∧
    parseCsv "1,,3\n4,5,6".toList =
      { headers := some ["1".toList, "".toList, "3".toList],
        rows := [["4".toList, "5".toList, "6".toList]] } := by
  have hh : isHeaderRow (split (sniffDelimiter (normalize text)) L) = true := by
    obtain ⟨cell, hmem, hcell⟩ := hcell
    unfold isHeaderRow
    rw [List.any_eq_true]
    exact ⟨cell, hmem, by rw [hcell]; rfl⟩
  refine ⟨by simpa [headerDetected, hL] using hh, ?_, by decide⟩
  rw [parseCsv_cons text L rest hL, if_pos hh]

theorem parseCsv_empty_cell_forces_header_witness :
    nonBlankLines (normalize "7; ;9\n1;2;3".toList) = ["7; ;9".toList, "1;2;3".toList] ∧
    (∃ cell ∈ split (sniffDelimiter (normalize "7; ;9\n1;2;3".toList)) "7; ;9".toList,
      trim cell = []) ∧
    parseCsv "7; ;9\n1;2;3".toList =
      { headers := some ["7".toList, "".toList, "9".toList],
        rows := [["1".toList, "2".toList, "3".toList]] } :=
  ⟨by decide, ⟨" ".toList, by decide, by decide⟩,
    ((parseCsv_empty_cell_forces_header "7; ;9\n1;2;3".toList "7; ;9".toList ["1;2;3".toList]
      (by decide) ⟨" ".toList, by decide, by decide⟩).2.1).trans (by decide)⟩

/-! ### Splitting and joining -/

theorem split_of_not_mem (sep : Char) (a : JsString) (ha : sep ∉ a) : split sep a = [a] := by
  induction a with
  | nil => rfl
  | cons c rest ih =>
    have hc : (c == sep) = false := by
      rw [beq_eq_false_iff_ne]
      exact fun h => ha (by simp [h])
    have hrest : sep ∉ rest := fun h => ha (List.mem_cons_of_mem _ h)
    rw [split, ih hrest]
    simp [hc, pushFront]

theorem split_append_sep (sep : Char) (a b : JsString) (ha : sep ∉ a) :
    split sep (a ++ sep :: b) = a :: split sep b := by
  induction a with
  | nil => simp [split]
  | cons c rest ih =>
    have hc : (c == sep) = false := by
      rw [beq_eq_false_iff_ne]
      exact fun h => ha (by simp [h])
    have hrest : sep ∉ rest := fun h => ha (List.mem_cons_of_mem _ h)
    rw [List.cons_append, split, ih hrest]
    simp [hc, pushFront]

theorem split_intercalate (sep : Char) (ls : List JsString) (hne : ls ≠ [])
    (h : ∀ l ∈ ls, sep ∉ l) : split sep (List.intercalate [sep] ls) = ls := by
  induction ls with
  | nil => exact absurd rfl hne
  | cons l ls ih =>
    have hl := h l (List.mem_cons_self _ _)
    cases ls with
    | nil => simpa [List.intercalate] using split_of_not_mem sep l hl
    | cons l' ls =>
      rw [intercalate_cons_cons, List.append_assoc, List.singleton_append,
        split_append_sep sep l _ hl,
        ih (List.cons_ne_nil _ _) fun x hx => h x (List.mem_cons_of_mem _ hx)]

theorem mem_of_mem_split (sep c : Char) (s piece : JsString) (hp : piece ∈ split sep s)
    (hc : c ∈ piece) : c ∈ s ∧ c ≠ sep := by
  induction s generalizing piece with
  | nil =>
    have : piece = [] := by simpa [split] using hp
    subst this
    simp at hc
  | cons x rest ih =>
    rw [split] at hp
    split_ifs at hp with hx
    · rcases List.mem_cons.1 hp with rfl | hp
      · simp at hc
      · exact ⟨List.mem_cons_of_mem _ (ih piece hp hc).1, (ih piece hp hc).2⟩
    · cases hs : split sep rest with
      | nil => exact absurd hs (split_ne_nil sep rest)
      | cons p ps =>
        rw [hs, pushFront] at hp
        rcases List.mem_cons.1 hp with rfl | hp
        · rcases List.mem_cons.1 hc with rfl | hc
          · exact ⟨List.mem_cons_self _ _, fun h => hx (by simp [h])⟩
          · have := ih p (by rw [hs]; exact List.mem_cons_self _ _) hc
            exact ⟨List.mem_cons_of_mem _ this.1, this.2⟩
        · have := ih piece (by rw [hs]; exact List.mem_cons_of_mem _ hp) hc
          exact ⟨List.mem_cons_of_mem _ this.1, this.2⟩

theorem head?_split_eq_firstLine (text : JsString) :
    (split '\n' text).head? = some (firstLine text) := by
  rw [head?_split, firstLine_eq_takeWhile]

theorem sniffDelimiter_congr (t t' : JsString) (h : firstLine t = firstLine t') :
    sniffDelimiter t = sniffDelimiter t' := by
  rw [sniffDelimiter_eq, sniffDelimiter_eq, h]

theorem parseCsv_congr (a b : JsString)
    (hd : sniffDelimiter (normalize a) = sniffDelimiter (normalize b))
    (hl : nonBlankLines (normalize a) = nonBlankLines (normalize b)) :
    parseCsv a = parseCsv b := by
  simp only [parseCsv, hd, hl]

/-! ### The table as a function of delimiter and lines -/

/-- The function `parseCsv` is `tableOfLines` on the sniffed delimiter and the
non-blank lines of the normalised text. -/
theorem parseCsv_eq_tableOfLines (text : JsString) :
    parseCsv text = tableOfLines (sniffDelimiter (normalize text)) (nonBlankLines (normalize text)) :=
  rfl

/-- Two delimiters that split every line alike give the same table. -/
theorem tableOfLines_congr (d d' : Char) (lines : List JsString)
    (h : ∀ l ∈ lines, split d' l = split d l ∧ parseRow d' l = parseRow d l) :
    tableOfLines d' lines = tableOfLines d lines := by
  cases lines with
  | nil => rfl
  | cons L rest =>
    have hL := (h L (List.mem_cons_self _ _)).1
    have hrows : ∀ ls : List JsString, (∀ l ∈ ls, l ∈ L :: rest) →
        ls.map (parseRow d') = ls.map (parseRow d) := by
      intro ls hls
      apply List.map_congr_left
      intro l hl
      exact (h l (hls l hl)).2
    simp only [tableOfLines, hL]
    by_cases hh : isHeaderRow (split d L) = true
    · simp only [hh, if_true]
      rw [hrows rest fun l hl => List.mem_cons_of_mem _ hl]
    · have hf : isHeaderRow (split d L) = false := by simpa using hh
      simp only [hf, Bool.false_eq_true, if_false]
      rw [hrows (L :: rest) fun l hl => hl]

/-! ### Blank lines -/

theorem lf_not_mem_of_mem_nonBlankLines (t l : JsString) (hl : l ∈ nonBlankLines t) :
    '\n' ∉ l := by
  intro hc
  exact (mem_of_mem_split '\n' '\n' t l (List.mem_filter.1 hl).1 hc).2 rfl

theorem cr_not_mem_of_mem_nonBlankLines (text l : JsString)
    (hl : l ∈ nonBlankLines (normalize text)) : '\r' ∉ l := by
  intro hc
  exact cr_not_mem_normalize text
    (mem_of_mem_split '\n' '\r' _ l (List.mem_filter.1 hl).1 hc).1

theorem nonBlankLines_intercalate (ls : List JsString) (hlf : ∀ l ∈ ls, '\n' ∉ l)
    (hnb : ∀ l ∈ ls, (trim l != []) = true) :
    nonBlankLines (List.intercalate ['\n'] ls) = ls := by
  unfold nonBlankLines
  cases ls with
  | nil => decide
  | cons l ls =>
    rw [split_intercalate '\n' _ (List.cons_ne_nil _ _) hlf, List.filter_eq_self]
    exact hnb

theorem normalize_deleteBlankLines (text : JsString) :
    normalize (deleteBlankLines text) = deleteBlankLines text :=
  normalize_intercalate_lf _ fun l hl => cr_not_mem_of_mem_nonBlankLines text l hl

theorem nonBlankLines_deleteBlankLines (text : JsString) :
    nonBlankLines (normalize (deleteBlankLines text)) = nonBlankLines (normalize text) := by
  rw [normalize_deleteBlankLines]
  exact nonBlankLines_intercalate _
    (fun l hl => lf_not_mem_of_mem_nonBlankLines _ l hl)
    (fun l hl => (List.mem_filter.1 hl).2)

theorem head?_nonBlankLines (t : JsString) (h : trim (firstLine t) ≠ []) :
    (nonBlankLines t).head? = some (firstLine t) := by
  have hs := head?_split_eq_firstLine t
  unfold nonBlankLines
  cases hsp : split '\n' t with
  | nil => exact absurd hsp (split_ne_nil _ _)
  | cons a as =>
    rw [hsp] at hs
    have ha : a = firstLine t := by simpa using hs
    subst ha
    have : (trim (firstLine t) != []) = true := by simpa using h
    rw [List.filter_cons, if_pos this]
    rfl

theorem firstLine_intercalate (L : JsString) (rest : List JsString)
    (h : ∀ l ∈ L :: rest, '\n' ∉ l) :
    firstLine (List.intercalate ['\n'] (L :: rest)) = L := by
  have := head?_split_eq_firstLine (List.intercalate ['\n'] (L :: rest))
  rw [split_intercalate '\n' _ (List.cons_ne_nil _ _) h] at this
  simpa using this.symm

/-- Two texts with the same non-blank lines and non-blank first lines have the
same table. -/
theorem parseCsv_eq_of_nonBlankLines_eq (a b : JsString)
    (hl : nonBlankLines (normalize a) = nonBlankLines (normalize b))
    (ha : trim (firstLine (normalize a)) ≠ []) (hb : trim (firstLine (normalize b)) ≠ []) :
    parseCsv a = parseCsv b := by
  apply parseCsv_congr a b _ hl
  apply sniffDelimiter_congr
  have h1 := head?_nonBlankLines _ ha
  have h2 := head?_nonBlankLines _ hb
  rw [hl, h2] at h1
  exact (Option.some.inj h1).symm

/-- C18, as the specification words it, fails: a blank line in front of the
first non-blank line is not a row, but it is the line the delimiter is
sniffed on, so deleting it changes the table. -/
theorem parseCsv_leading_blank_line_matters :
    deleteBlankLines "\na;b\n1;2".toList = "a;b\n1;2".toList ∧
    parseCsv "\na;b\n1;2".toList =
      { headers := some ["a;b".toList], rows := [["1;2".toList]] } ∧
    parseCsv "a;b\n1;2".toList =
      { headers := some ["a".toList, "b".toList], rows := [["1".toList, "2".toList]] } ∧
    parseCsv (deleteBlankLines "\na;b\n1;2".toList) ≠ parseCsv "\na;b\n1;2".toList := by
  decide

theorem firstLine_of_no_lf (L : JsString) (h : '\n' ∉ L) : firstLine L = L := by
  unfold firstLine
  rw [(indexOf_eq_none_iff '\n' L).2 h]

/-- The delimiter sniffed on the text without its blank lines is the one
sniffed on the first non-blank line. -/
theorem sniffDelimiter_deleteBlankLines (text L : JsString) (rest : List JsString)
    (hnb : nonBlankLines (normalize text) = L :: rest) :
    sniffDelimiter (normalize (deleteBlankLines text)) = sniffDelimiter L := by
  have hlf : ∀ l ∈ L :: rest, '\n' ∉ l := by
    intro l hl
    rw [← hnb] at hl
    exact lf_not_mem_of_mem_nonBlankLines _ l hl
  apply sniffDelimiter_congr
  rw [normalize_deleteBlankLines]
  unfold deleteBlankLines
  rw [hnb, firstLine_intercalate L rest hlf,
    firstLine_of_no_lf L (hlf L (List.mem_cons_self _ _))]

/-- With a non-blank first line, deleting the blank lines keeps the sniffed
delimiter. -/
theorem sniffDelimiter_deleteBlankLines_of_first (text : JsString)
    (h : trim (firstLine (normalize text)) ≠ []) :
    sniffDelimiter (normalize (deleteBlankLines text)) = sniffDelimiter (normalize text) := by
  have hhead := head?_nonBlankLines _ h
  cases hnb : nonBlankLines (normalize text) with
  | nil =>
    rw [hnb] at hhead
    exact absurd hhead (by simp)
  | cons L rest =>
    rw [hnb] at hhead
    have hL : L = firstLine (normalize text) := by simpa using hhead
    rw [sniffDelimiter_deleteBlankLines text L rest hnb]
    apply sniffDelimiter_congr
    rw [hL, firstLine_of_no_lf]
    rw [← hL]
    have hmem : L ∈ nonBlankLines (normalize text) := by
      rw [hnb]
      exact List.mem_cons_self _ _
    exact lf_not_mem_of_mem_nonBlankLines _ L hmem

/-- C18, amended. Blank lines never become headers or rows; their only trace is
that the delimiter is sniffed on the first line of the text even when that
line is blank.  For every text, the table of the text and the table of the
text with every blank line deleted are built from the same non-blank lines,
the first under the delimiter sniffed on the first line of the text and the
second under the delimiter sniffed on the first non-blank line; so the two
tables are equal exactly when these two delimiters give the same table on the
non-blank lines.  That is the case whenever the two delimiters split every
non-blank line alike, in particular whenever they coincide (as they do when
the first line is not blank) and whenever there is no non-blank line.  Any
other text with the same non-blank lines and the same sniffed delimiter has
the same table, so inserting or removing blank lines that keep the sniffed
delimiter changes neither headers nor rows. -/
theorem parseCsv_blank_lines_discarded (text : JsString) :
    parseCsv text =
      tableOfLines (sniffDelimiter (normalize text)) (nonBlankLines (normalize text)) ∧
    parseCsv (deleteBlankLines text) =
      tableOfLines (sniffDelimiter (normalize (deleteBlankLines text)))
        (nonBlankLines (normalize text)) ∧
    (parseCsv (deleteBlankLines text) = parseCsv text ↔
      tableOfLines (sniffDelimiter (normalize (deleteBlankLines text)))
          (nonBlankLines (normalize text))
        = tableOfLines (sniffDelimiter (normalize text)) (nonBlankLines (normalize text))) ∧
    ((∀ l ∈ nonBlankLines (normalize text),
        split (sniffDelimiter (normalize (deleteBlankLines text))) l
          = split (sniffDelimiter (normalize text)) l ∧
        parseRow (sniffDelimiter (normalize (deleteBlankLines text))) l
          = parseRow (sniffDelimiter (normalize text)) l) →
      parseCsv (deleteBlankLines text) = parseCsv text) ∧
    ((sniffDelimiter (normalize (deleteBlankLines text)) = sniffDelimiter (normalize text) ∨
        nonBlankLines (normalize text) = []) →
      parseCsv (deleteBlankLines text) = parseCsv text) ∧
    (∀ L rest, nonBlankLines (normalize text) = L :: rest →
      sniffDelimiter (normalize (deleteBlankLines text)) = sniffDelimiter L) ∧
    (trim (firstLine (normalize text)) ≠ [] →
      sniffDelimiter (normalize (deleteBlankLines text)) = sniffDelimiter (normalize text)) ∧
    (∀ other : JsString, nonBlankLines (normalize other) = nonBlankLines (normalize text) →
      sniffDelimiter (normalize other) = sniffDelimiter (normalize text) →
      parseCsv other = parseCsv text) := by
  have h1 := parseCsv_eq_tableOfLines text
  have h2 : parseCsv (deleteBlankLines text) =
      tableOfLines (sniffDelimiter (normalize (deleteBlankLines text)))
        (nonBlankLines (normalize text)) := by
    rw [parseCsv_eq_tableOfLines, nonBlankLines_deleteBlankLines]
  have hline : (∀ l ∈ nonBlankLines (normalize text),
        split (sniffDelimiter (normalize (deleteBlankLines text))) l
          = split (sniffDelimiter (normalize text)) l ∧
        parseRow (sniffDelimiter (normalize (deleteBlankLines text))) l
          = parseRow (sniffDelimiter (normalize text)) l) →
      parseCsv (deleteBlankLines text) = parseCsv text := by
    intro h
    rw [h1, h2]
    exact tableOfLines_congr _ _ _ h
  refine ⟨h1, h2, by rw [h1, h2], hline, ?_,
    fun L rest hnb => sniffDelimiter_deleteBlankLines text L rest hnb,
    sniffDelimiter_deleteBlankLines_of_first text,
    fun other hl hd => parseCsv_congr other text hd hl⟩
  rintro (h | h)
  · apply hline
    intro l _
    rw [h]
    exact ⟨rfl, rfl⟩
  · apply hline
    intro l hl
    rw [h] at hl
    simp at hl

theorem parseCsv_blank_lines_discarded_witness :
    sniffDelimiter (normalize (deleteBlankLines "\n \na,b\n\n1,2".toList))
      = sniffDelimiter (normalize "\n \na,b\n\n1,2".toList) ∧
    deleteBlankLines "\n \na,b\n\n1,2".toList = "a,b\n1,2".toList ∧
    parseCsv "a,b\n1,2".toList = parseCsv "\n \na,b\n\n1,2".toList ∧
    trim (firstLine (normalize "a;b\r\n\r\n 1;2\n \n".toList)) ≠ [] ∧
    parseCsv (deleteBlankLines "a;b\r\n\r\n 1;2\n \n".toList)
      = parseCsv "a;b\r\n\r\n 1;2\n \n".toList ∧
    nonBlankLines (normalize "\t\t\n \n".toList) = [] ∧
    parseCsv (deleteBlankLines "\t\t\n \n".toList) = parseCsv "\t\t\n \n".toList ∧
    sniffDelimiter (normalize "\t\t\nabc\n1".toList) = '\t' ∧
    sniffDelimiter (normalize (deleteBlankLines "\t\t\nabc\n1".toList)) = ',' ∧
    parseCsv (deleteBlankLines "\t\t\nabc\n1".toList) = parseCsv "\t\t\nabc\n1".toList :=
  ⟨by decide, by decide,
    (parseCsv_blank_lines_discarded "\n \na,b\n\n1,2".toList).2.2.2.2.1 (Or.inl (by decide)),
    by decide,
    (parseCsv_blank_lines_discarded "a;b\r\n\r\n 1;2\n \n".toList).2.2.2.2.1
      (Or.inl ((parseCsv_blank_lines_discarded "a;b\r\n\r\n 1;2\n \n".toList).2.2.2.2.2.2.1
        (by decide))),
    by decide,
    (parseCsv_blank_lines_discarded "\t\t\n \n".toList).2.2.2.2.1 (Or.inr (by decide)),
    by decide, by decide,
    (parseCsv_blank_lines_discarded "\t\t\nabc\n1".toList).2.2.2.1 (by decide)⟩

/-! ### Trimming -/

theorem trim_sublist (s : JsString) : (trim s).Sublist s := by
  unfold trim
  have h1 : ((s.dropWhile isJsWhitespace).reverse.dropWhile isJsWhitespace).Sublist
      (s.dropWhile isJsWhitespace).reverse := List.dropWhile_sublist _
  have h2 := List.reverse_sublist.2 h1
  rw [List.reverse_reverse] at h2
  exact h2.trans (List.dropWhile_sublist _)

theorem mem_of_mem_trim (c : Char) (s : JsString) (h : c ∈ trim s) : c ∈ s :=
  (trim_sublist s).subset h

theorem count_trim_le (c : Char) (s : JsString) : (trim s).count c ≤ s.count c :=
  (trim_sublist s).count_le c

theorem trim_ne_nil_of_mem (c : Char) (s : JsString) (hc : c ∈ s)
    (hws : isJsWhitespace c = false) : trim s ≠ [] := by
  intro h
  have := count_trim c hws s
  rw [h] at this
  have hpos : 0 < s.count c := List.count_pos_iff.2 hc
  simp at this
  omega

theorem exists_not_whitespace_of_trim_ne_nil (s : JsString) (h : trim s ≠ []) :
    ∃ c ∈ s, isJsWhitespace c = false := by
  by_contra hcon
  apply h
  have hall : ∀ c ∈ s, isJsWhitespace c = true := by
    intro c hc
    by_contra hf
    exact hcon ⟨c, hc, by simpa using hf⟩
  unfold trim
  rw [List.dropWhile_eq_nil_iff.2 hall]
  rfl

theorem head?_dropWhile_not (p : Char → Bool) (l : JsString) (x : Char)
    (h : (l.dropWhile p).head? = some x) : p x = false := by
  induction l with
  | nil => simp at h
  | cons a as ih =>
    rw [List.dropWhile_cons] at h
    split_ifs at h with ha
    · exact ih h
    · have : a = x := by simpa using h
      subst this
      simpa using ha

theorem dropWhile_eq_self_of_head (p : Char → Bool) (l : JsString)
    (h : ∀ x, l.head? = some x → p x = false) : l.dropWhile p = l := by
  cases l with
  | nil => rfl
  | cons a as =>
    have := h a rfl
    simp [List.dropWhile_cons, this]

theorem getLast?_dropWhile (p : Char → Bool) (l : JsString) (h : l.dropWhile p ≠ []) :
    (l.dropWhile p).getLast? = l.getLast? := by
  induction l with
  | nil => rfl
  | cons a as ih =>
    rw [List.dropWhile_cons] at h ⊢
    split_ifs at h ⊢ with ha
    · rw [ih h]
      cases as with
      | nil => simp at h
      | cons b bs => rw [List.getLast?_cons_cons]
    · rfl

theorem trim_trim (s : JsString) : trim (trim s) = trim s := by
  by_cases hne : trim s = []
  · rw [hne]
    rfl
  · have hB : (s.dropWhile isJsWhitespace).reverse.dropWhile isJsWhitespace ≠ [] := by
      intro h
      apply hne
      unfold trim
      rw [h]
      rfl
    have hhead : ∀ x, (trim s).head? = some x → isJsWhitespace x = false := by
      intro x hx
      unfold trim at hx
      rw [List.head?_reverse, getLast?_dropWhile _ _ hB, List.getLast?_reverse] at hx
      exact head?_dropWhile_not _ _ _ hx
    have hlast : ∀ x, (trim s).reverse.head? = some x → isJsWhitespace x = false := by
      intro x hx
      unfold trim at hx
      rw [List.reverse_reverse] at hx
      exact head?_dropWhile_not _ _ _ hx
    show ((List.dropWhile isJsWhitespace (trim s)).reverse.dropWhile isJsWhitespace).reverse
      = trim s
    rw [dropWhile_eq_self_of_head _ _ hhead, dropWhile_eq_self_of_head _ _ hlast,
      List.reverse_reverse]

/-! ### Counting characters across `split` and `join` -/

theorem sum_count_split (d c : Char) (hcd : c ≠ d) (L : JsString) :
    ((split d L).map (List.count c)).sum = L.count c := by
  induction L with
  | nil => rfl
  | cons x rest ih =>
    rw [split]
    split_ifs with hx
    · have hxd : x = d := by simpa using hx
      have hxc : (x == c) = false := by
        rw [beq_eq_false_iff_ne, hxd]
        exact fun h => hcd h.symm
      rw [List.map_cons, List.sum_cons, ih, List.count_nil, Nat.zero_add, List.count_cons, hxc]
      simp
    · cases hs : split d rest with
      | nil => exact absurd hs (split_ne_nil d rest)
      | cons p ps =>
        rw [hs] at ih
        simp only [pushFront, List.map_cons, List.sum_cons, List.count_cons] at ih ⊢
        omega

theorem count_intercalate (d c : Char) (xs : List JsString) :
    (List.intercalate [d] xs).count c =
      (xs.map (List.count c)).sum + (if c = d then xs.length - 1 else 0) := by
  induction xs with
  | nil => simp [List.intercalate]
  | cons x xs ih =>
    cases xs with
    | nil => simp [List.intercalate]
    | cons y ys =>
      rw [intercalate_cons_cons, List.count_append, List.count_append, ih]
      by_cases h : c = d
      · subst h
        simp
        omega
      · have hdc : (d == c) = false := by
          rw [beq_eq_false_iff_ne]
          exact fun h' => h h'.symm
        simp [h, List.count_cons, hdc]

theorem delimiter_not_mem_trim_piece (d : Char) (L piece : JsString)
    (hp : piece ∈ split d L) : d ∉ trim piece := fun h =>
  (mem_of_mem_split d d L piece hp (mem_of_mem_trim d piece h)).2 rfl

/-- Joining the trimmed pieces of a line again keeps the number of
occurrences of the delimiter and of every character that is not white space. -/
theorem count_join_trim_split_eq (d c : Char) (L : JsString)
    (hc : isJsWhitespace c = false ∨ c = d) :
    (List.intercalate [d] ((split d L).map trim)).count c = L.count c := by
  rw [count_intercalate, List.map_map, List.length_map, length_split]
  by_cases hcd : c = d
  · subst hcd
    have hzero : ((split c L).map (List.count c ∘ trim)).sum = 0 := by
      apply List.sum_eq_zero
      intro n hn
      obtain ⟨p, hp, rfl⟩ := List.mem_map.1 hn
      exact List.count_eq_zero_of_not_mem (delimiter_not_mem_trim_piece c L p hp)
    rw [hzero]
    simp
  · have hws : isJsWhitespace c = false := hc.resolve_right hcd
    have : (split d L).map (List.count c ∘ trim) = (split d L).map (List.count c) := by
      apply List.map_congr_left
      intro p _
      exact count_trim c hws p
    rw [this, sum_count_split d c hcd, if_neg hcd, Nat.add_zero]

theorem count_join_trim_split_le (d c : Char) (L : JsString) :
    (List.intercalate [d] ((split d L).map trim)).count c ≤ L.count c := by
  by_cases hcd : c = d
  · exact le_of_eq (count_join_trim_split_eq d c L (Or.inr hcd))
  · rw [count_intercalate, List.map_map, if_neg hcd, Nat.add_zero, ← sum_count_split d c hcd L]
    apply List.sum_le_sum
    intro p _
    exact count_trim_le c p

theorem split_join_trim_split (d : Char) (L : JsString) :
    split d (List.intercalate [d] ((split d L).map trim)) = (split d L).map trim := by
  apply split_intercalate
  · intro h
    exact split_ne_nil d L (List.map_eq_nil_iff.1 h)
  · intro l hl
    obtain ⟨p, hp, rfl⟩ := List.mem_map.1 hl
    exact delimiter_not_mem_trim_piece d L p hp

/-! ### Lines without double quotes -/

theorem lookaheadMatches_of_no_quote (rest : JsString) (h : '"' ∉ rest) :
    lookaheadMatches rest = true := by
  rw [lookaheadMatches_iff, List.count_eq_zero_of_not_mem h]

theorem splitRegex_eq_split_of_no_quote (d : Char) (line : JsString) (h : '"' ∉ line) :
    splitRegex d line = split d line := by
  induction line with
  | nil => rfl
  | cons c rest ih =>
    have hrest : '"' ∉ rest := fun h' => h (List.mem_cons_of_mem _ h')
    rw [splitRegex, split, ih hrest, lookaheadMatches_of_no_quote rest hrest, Bool.and_true]

theorem stripEdgeQuotes_of_no_quote (t : JsString) (h : '"' ∉ t) : stripEdgeQuotes t = t := by
  have h1 : ¬ t.head? = some '"' := fun hh => h (List.mem_of_mem_head? hh)
  have h2 : ¬ t.getLast? = some '"' := fun hh => h (List.mem_of_mem_getLast? hh)
  rw [stripEdgeQuotes_eq]
  simp only [if_neg h1, if_neg h2]

theorem parseRow_of_no_quote (d : Char) (line : JsString) (h : '"' ∉ line) :
    parseRow d line = (split d line).map trim := by
  rw [parseRow, splitRegex_eq_split_of_no_quote d line h]
  apply List.map_congr_left
  intro p hp
  unfold cleanCell
  apply stripEdgeQuotes_of_no_quote
  intro hq
  exact h (mem_of_mem_split d '"' line p hp (mem_of_mem_trim _ _ hq)).1

theorem mem_replaceCrLf (c : Char) (t : JsString) (h : c ∈ replaceCrLf t) :
    c ∈ t ∨ c = '\n' := by
  induction t using replaceCrLf.induct with
  | case1 rest ih =>
    rw [replaceCrLf] at h
    rcases List.mem_cons.1 h with h | h
    · exact Or.inr h
    · rcases ih h with h | h
      · exact Or.inl (List.mem_cons_of_mem _ (List.mem_cons_of_mem _ h))
      · exact Or.inr h
  | case2 x rest hx ih =>
    rw [replaceCrLf] at h
    · rcases List.mem_cons.1 h with h | h
      · exact Or.inl (by simp [h])
      · rcases ih h with h | h
        · exact Or.inl (List.mem_cons_of_mem _ h)
        · exact Or.inr h
    · exact hx
  | case3 => simp [replaceCrLf] at h

theorem mem_normalize (c : Char) (t : JsString) (h : c ∈ normalize t) : c ∈ t ∨ c = '\n' := by
  unfold normalize replaceCr at h
  obtain ⟨x, hx, hxc⟩ := List.mem_map.1 h
  by_cases hr : x = '\r'
  · right
    simpa [hr] using hxc.symm
  · have : x = c := by simpa [hr] using hxc
    subst this
    exact mem_replaceCrLf x t hx

theorem firstLine_append_lf (a b : JsString) (ha : '\n' ∉ a) :
    firstLine (a ++ '\n' :: b) = a := by
  unfold firstLine
  rw [indexOf_append_cons '\n' a b ha]
  simp

/-! ### Re-parsing a reconstructed text -/

theorem not_mem_rejoinTrimmed (d c : Char) (line : JsString) (h : c ∉ line) :
    c ∉ rejoinTrimmed d line := by
  intro hc
  have h1 : 0 < (rejoinTrimmed d line).count c := List.count_pos_iff.2 hc
  have h2 := count_join_trim_split_le d c line
  rw [List.count_eq_zero_of_not_mem h] at h2
  unfold rejoinTrimmed at h1
  omega

theorem trim_rejoinTrimmed_ne_nil (d : Char) (line : JsString) (h : trim line ≠ []) :
    trim (rejoinTrimmed d line) ≠ [] := by
  obtain ⟨x, hx, hws⟩ := exists_not_whitespace_of_trim_ne_nil line h
  apply trim_ne_nil_of_mem x _ _ hws
  apply List.count_pos_iff.1
  unfold rejoinTrimmed
  rw [count_join_trim_split_eq d x line (Or.inl hws)]
  exact List.count_pos_iff.2 hx

theorem split_rejoinTrimmed (d : Char) (line : JsString) :
    (split d (rejoinTrimmed d line)).map trim = (split d line).map trim := by
  unfold rejoinTrimmed
  rw [split_join_trim_split, List.map_map]
  apply List.map_congr_left
  intro p _
  exact trim_trim p

theorem isHeaderRow_rejoinTrimmed (d : Char) (line : JsString) :
    isHeaderRow (split d (rejoinTrimmed d line)) = isHeaderRow (split d line) := by
  unfold rejoinTrimmed
  rw [split_join_trim_split]
  unfold isHeaderRow
  rw [List.any_map]
  congr 1
  funext cell
  simp only [Function.comp, trim_trim]

theorem sniffDelimiter_rejoinTrimmed (t t' : JsString)
    (h : firstLine t' = rejoinTrimmed (sniffDelimiter t) (firstLine t)) :
    sniffDelimiter t' = sniffDelimiter t := by
  have ha := count_join_trim_split_eq (sniffDelimiter t) ',' (firstLine t) (Or.inl (by decide))
  have hb := count_join_trim_split_eq (sniffDelimiter t) ';' (firstLine t) (Or.inl (by decide))
  have hc := count_join_trim_split_le (sniffDelimiter t) '\t' (firstLine t)
  have hc' : sniffDelimiter t = '\t' →
      (rejoinTrimmed (sniffDelimiter t) (firstLine t)).count '\t' = (firstLine t).count '\t' :=
    fun hd => count_join_trim_split_eq (sniffDelimiter t) '\t' (firstLine t) (Or.inr hd.symm)
  have hform := sniffDelimiter_eq t
  rw [sniffDelimiter_eq t', h]
  unfold rejoinTrimmed at hc' ⊢
  rw [ha, hb]
  generalize sniffDelimiter t = d at *
  generalize (firstLine t).count ',' = a at *
  generalize (firstLine t).count ';' = b at *
  generalize (firstLine t).count '\t' = c at *
  generalize (List.intercalate [d] ((split d (firstLine t)).map trim)).count '\t' = c' at *
  split_ifs at hform with h1 h2 h3
  · rw [hform, if_pos h1, if_pos (le_trans hc h2)]
  · have := hc' hform
    subst this
    rw [hform, if_pos h1, if_neg h2]
  · rw [hform, if_neg h1, if_pos (le_trans hc h3)]
  · have := hc' hform
    subst this
    rw [hform, if_neg h1, if_neg h3]

theorem sniffDelimiter_mem (t : JsString) : sniffDelimiter t ∈ delimiters := by
  rw [sniffDelimiter_eq]
  split_ifs <;> simp [delimiters]

theorem mem_of_mem_splitRegex (d c : Char) (s piece : JsString) (hp : piece ∈ splitRegex d s)
    (hc : c ∈ piece) : c ∈ s := by
  induction s generalizing piece with
  | nil =>
    have : piece = [] := by simpa [splitRegex] using hp
    subst this
    simp at hc
  | cons x rest ih =>
    rw [splitRegex] at hp
    split_ifs at hp with hx
    · rcases List.mem_cons.1 hp with rfl | hp
      · simp at hc
      · exact List.mem_cons_of_mem _ (ih piece hp hc)
    · cases hs : splitRegex d rest with
      | nil => exact absurd hs (splitRegex_ne_nil d rest)
      | cons q qs =>
        rw [hs, pushFront] at hp
        rcases List.mem_cons.1 hp with rfl | hp
        · rcases List.mem_cons.1 hc with rfl | hc
          · exact List.mem_cons_self _ _
          · exact List.mem_cons_of_mem _ (ih q (by rw [hs]; exact List.mem_cons_self _ _) hc)
        · exact List.mem_cons_of_mem _
            (ih piece (by rw [hs]; exact List.mem_cons_of_mem _ hp) hc)

theorem mem_of_mem_stripEdgeQuotesFrom (c : Char) (atStart : Bool) (t : JsString)
    (h : c ∈ stripEdgeQuotesFrom atStart t) : c ∈ t := by
  induction t generalizing atStart with
  | nil => simp [stripEdgeQuotesFrom] at h
  | cons x rest ih =>
    rw [stripEdgeQuotesFrom] at h
    split_ifs at h
    · exact List.mem_cons_of_mem _ (ih false h)
    · rcases List.mem_cons.1 h with rfl | h
      · exact List.mem_cons_self _ _
      · exact List.mem_cons_of_mem _ (ih false h)

theorem mem_of_mem_cleanCell (c : Char) (field : JsString) (h : c ∈ cleanCell field) :
    c ∈ field :=
  mem_of_mem_trim c field (mem_of_mem_stripEdgeQuotesFrom c true _ h)

theorem mem_line_of_mem_parseRow (d c : Char) (line cell : JsString)
    (hcell : cell ∈ parseRow d line) (hc : c ∈ cell) : c ∈ line := by
  obtain ⟨piece, hp, rfl⟩ := List.mem_map.1 hcell
  exact mem_of_mem_splitRegex d c line piece hp (mem_of_mem_cleanCell c piece hc)

theorem not_mem_intercalate_cells (d c : Char) (r : List JsString) (hcd : c ≠ d)
    (h : ∀ cell ∈ r, c ∉ cell) : c ∉ List.intercalate [d] r :=
  not_mem_intercalate c [d] r (by simpa using hcd) h

/-- A row whose cells are trimmed and hold neither the delimiter nor a double
quote reads back as itself. -/
theorem parseRow_intercalate_of_clean (d : Char) (r : List JsString) (hd : d ≠ '"')
    (hne : r ≠ [])
    (h : ∀ cell ∈ r, '"' ∉ cell ∧ d ∉ cell ∧ trim cell = cell) :
    parseRow d (List.intercalate [d] r) = r := by
  have hq : '"' ∉ List.intercalate [d] r :=
    not_mem_intercalate_cells d '"' r (fun h' => hd h'.symm) fun cell hc => (h cell hc).1
  rw [parseRow_of_no_quote d _ hq, split_intercalate d r hne fun cell hc => (h cell hc).2.1]
  conv_rhs => rw [← List.map_id r]
  apply List.map_congr_left
  intro cell hc
  exact (h cell hc).2.2

theorem reconstruct_cons_eq (d : Char) (L : JsString) (rows : List (List JsString)) :
    reconstruct d ((split d L).map trim) rows = rejoinTrimmed d L ++
      '\n' :: List.intercalate ['\n'] (rows.map fun r => List.intercalate [d] r) := rfl

theorem normalize_reconstruct (d : Char) (L : JsString) (rows : List (List JsString))
    (hLcr : '\r' ∉ L) (hrcr : ∀ r ∈ rows, '\r' ∉ List.intercalate [d] r) :
    normalize (reconstruct d ((split d L).map trim) rows)
      = reconstruct d ((split d L).map trim) rows := by
  apply normalize_of_no_cr
  rw [reconstruct_cons_eq]
  intro hm
  rcases List.mem_append.1 hm with hm | hm
  · exact not_mem_rejoinTrimmed d _ L hLcr hm
  · rcases List.mem_cons.1 hm with hm | hm
    · exact absurd hm (by decide)
    · refine not_mem_intercalate '\r' _ _ (by decide) ?_ hm
      intro l hl
      obtain ⟨x, hx, rfl⟩ := List.mem_map.1 hl
      exact hrcr x hx

theorem nonBlankLines_intercalate_filter (ls : List JsString) (hlf : ∀ l ∈ ls, '\n' ∉ l) :
    nonBlankLines (List.intercalate ['\n'] ls) = ls.filter fun l => trim l != [] := by
  unfold nonBlankLines
  cases ls with
  | nil => decide
  | cons l ls => rw [split_intercalate '\n' _ (List.cons_ne_nil _ _) hlf]

/-- The table `parseCsv` builds, under the delimiter `d`, from the text rebuilt
out of a header line and rows: the same headers, and the rows read back from
the rebuilt lines that are not blank. -/
theorem tableOfLines_reconstruct (d : Char) (L : JsString) (rows : List (List JsString))
    (hLlf : '\n' ∉ L) (hLnb : trim L ≠ [])
    (hhead : isHeaderRow (split d L) = true)
    (hrlf : ∀ r ∈ rows, '\n' ∉ List.intercalate [d] r) :
    tableOfLines d (nonBlankLines (reconstruct d ((split d L).map trim) rows)) =
      { headers := some ((split d L).map trim),
        rows := (((rows.map fun r => List.intercalate [d] r).filter
          fun l => trim l != []).map (parseRow d)) } := by
  have hJlf : ∀ l ∈ rows.map (fun r => List.intercalate [d] r), '\n' ∉ l := by
    intro l hl
    obtain ⟨x, hx, rfl⟩ := List.mem_map.1 hl
    exact hrlf x hx
  have hLlf' := not_mem_rejoinTrimmed d _ L hLlf
  have hLnb' : (trim (rejoinTrimmed d L) != []) = true := by
    simpa using trim_rejoinTrimmed_ne_nil d L hLnb
  have hlines : nonBlankLines (reconstruct d ((split d L).map trim) rows)
      = rejoinTrimmed d L ::
        (rows.map fun r => List.intercalate [d] r).filter fun l => trim l != [] := by
    have h1 : nonBlankLines (reconstruct d ((split d L).map trim) rows) = (rejoinTrimmed d L ::
        split '\n' (List.intercalate ['\n'] (rows.map fun r => List.intercalate [d] r))).filter
          fun line => trim line != [] := by
      rw [reconstruct_cons_eq]
      unfold nonBlankLines
      rw [split_append_sep '\n' _ _ hLlf']
    rw [h1, List.filter_cons, if_pos hLnb']
    congr 1
    exact nonBlankLines_intercalate_filter _ hJlf
  rw [hlines]
  simp only [tableOfLines, isHeaderRow_rejoinTrimmed, hhead, if_true, split_rejoinTrimmed]

theorem map_eq_self_iff (f : List JsString → List JsString) (rows : List (List JsString)) :
    rows.map f = rows ↔ ∀ r ∈ rows, f r = r := by
  induction rows with
  | nil => simp
  | cons r rs ih => simp [ih]

/-- The rows read back from the rebuilt lines are the rows themselves exactly
when every row gives a line that is not blank and reads back as the row. -/
theorem rows_read_back_iff (d : Char) (rows : List (List JsString)) :
    ((rows.map fun r => List.intercalate [d] r).filter fun l => trim l != []).map (parseRow d)
        = rows ↔
      ∀ r ∈ rows, trim (List.intercalate [d] r) ≠ [] ∧
        parseRow d (List.intercalate [d] r) = r := by
  constructor
  · intro h
    have hlen : ((rows.map fun r => List.intercalate [d] r).filter
        fun l => trim l != []).length = (rows.map fun r => List.intercalate [d] r).length := by
      have := congrArg List.length h
      rw [List.length_map] at this
      rw [this, List.length_map]
    have hfilter := (List.filter_sublist _).eq_of_length hlen
    rw [hfilter, List.map_map, map_eq_self_iff] at h
    rw [List.filter_eq_self] at hfilter
    intro r hr
    refine ⟨?_, h r hr⟩
    have := hfilter (List.intercalate [d] r) (List.mem_map.2 ⟨r, hr, rfl⟩)
    simpa using this
  · intro h
    have hfilter : ((rows.map fun r => List.intercalate [d] r).filter fun l => trim l != [])
        = rows.map fun r => List.intercalate [d] r := by
      rw [List.filter_eq_self]
      intro l hl
      obtain ⟨r, hr, rfl⟩ := List.mem_map.1 hl
      simpa using (h r hr).1
    rw [hfilter, List.map_map, map_eq_self_iff]
    intro r hr
    exact (h r hr).2

theorem mem_intercalate_of_mem (d x : Char) (r : List JsString) (cell : JsString)
    (hcell : cell ∈ r) (hx : x ∈ cell) : x ∈ List.intercalate [d] r := by
  induction r with
  | nil => simp at hcell
  | cons a as ih =>
    cases as with
    | nil =>
      have : cell = a := by simpa using hcell
      subst this
      simpa [List.intercalate] using hx
    | cons b bs =>
      rw [intercalate_cons_cons]
      rcases List.mem_cons.1 hcell with rfl | hcell
      · simp [hx]
      · have := ih hcell
        simp [this]

theorem delimiter_mem_intercalate (d : Char) (r : List JsString) (h : 2 ≤ r.length) :
    d ∈ List.intercalate [d] r := by
  match r, h with
  | a :: b :: bs, _ =>
    rw [intercalate_cons_cons]
    simp

/-- What `parseCsv` has read when it returns an array of headers: nothing at
all, or a header line and the lines after it. -/
theorem parseCsv_shape_of_headers (text : JsString) (hs : List JsString)
    (hh : (parseCsv text).headers = some hs) :
    (nonBlankLines (normalize text) = [] ∧ hs = [] ∧ (parseCsv text).rows = []) ∨
    ∃ L rest, nonBlankLines (normalize text) = L :: rest ∧
      isHeaderRow (split (sniffDelimiter (normalize text)) L) = true ∧
      hs = (split (sniffDelimiter (normalize text)) L).map trim ∧
      (parseCsv text).rows = rest.map (parseRow (sniffDelimiter (normalize text))) := by
  cases hnb : nonBlankLines (normalize text) with
  | nil =>
    left
    have hp : parseCsv text = { headers := some [], rows := [] } := by
      simp [parseCsv, hnb]
    rw [hp] at hh ⊢
    exact ⟨rfl, (Option.some.inj hh).symm, rfl⟩
  | cons L rest =>
    right
    have hcons := parseCsv_cons text L rest hnb
    by_cases hhead : isHeaderRow (split (sniffDelimiter (normalize text)) L) = true
    · rw [if_pos hhead] at hcons
      rw [hcons] at hh ⊢
      exact ⟨L, rest, rfl, hhead, (Option.some.inj hh).symm, rfl⟩
    · rw [if_neg hhead] at hcons
      rw [hcons] at hh
      exact absurd hh (by simp)

/-- C16, as the specification words it, fails.  The text `\na;b\n1;2` holds no
double quote at all; it is parsed with the delimiter `,` (sniffed on its blank
first line) into the header `a;b` and the row `1;2`, and the text rebuilt from
that table is parsed with `;` into two headers and two cells.  With one
delimiter throughout, a quoted cell with inner white space is trimmed a second
time when parsed again. -/
theorem parseCsv_reparse_differs :
    parseCsv "\na;b\n1;2".toList = { headers := some ["a;b".toList], rows := [["1;2".toList]] } ∧
    sniffDelimiter (normalize "\na;b\n1;2".toList) = ',' ∧
    reconstruct ',' ["a;b".toList] [["1;2".toList]] = "a;b\n1;2".toList ∧
    parseCsv (reconstruct ',' ["a;b".toList] [["1;2".toList]]) =
      { headers := some ["a".toList, "b".toList], rows := [["1".toList, "2".toList]] } ∧
    parseCsv "h\n\" x \"".toList = { headers := some ["h".toList], rows := [[" x ".toList]] } ∧
    parseCsv (reconstruct ',' ["h".toList] [[" x ".toList]]) =
      { headers := some ["h".toList], rows := [["x".toList]] } := by
  decide

/-- C16, amended. Suppose `parseCsv` returns the headers `hs` and some rows
under the sniffed delimiter `d`, and let the reconstructed text be
`hs.join(d) + "\n" + rows.map(r => r.join(d)).join("\n")`.  If the delimiter
sniffed on the reconstructed text splits each of its non-blank lines as `d`
does (in particular if it is `d` itself, as it is whenever the first line of
the input is not blank, or if the input has no non-blank line), then parsing
the reconstructed text returns the same headers and the same rows exactly
when every returned row reads back as itself: the line `r.join(d)` is not
blank and is split and cleaned into `r` again.  A row reads back as itself
when its cells are trimmed and hold neither the delimiter nor a double quote,
provided a cell is not empty or the row has two cells and the delimiter is
not TAB; so does every row of an input without double quotes. -/
theorem parseCsv_reparse_reconstructed (text : JsString) (hs : List JsString)
    (hh : (parseCsv text).headers = some hs) :
    ((∀ l ∈ nonBlankLines
          (normalize (reconstruct (sniffDelimiter (normalize text)) hs (parseCsv text).rows)),
        split (sniffDelimiter
            (normalize (reconstruct (sniffDelimiter (normalize text)) hs (parseCsv text).rows))) l
          = split (sniffDelimiter (normalize text)) l ∧
        parseRow (sniffDelimiter
            (normalize (reconstruct (sniffDelimiter (normalize text)) hs (parseCsv text).rows))) l
          = parseRow (sniffDelimiter (normalize text)) l) →
      (parseCsv (reconstruct (sniffDelimiter (normalize text)) hs (parseCsv text).rows)
          = parseCsv text ↔
        ∀ r ∈ (parseCsv text).rows,
          trim (List.intercalate [sniffDelimiter (normalize text)] r) ≠ [] ∧
          parseRow (sniffDelimiter (normalize text))
            (List.intercalate [sniffDelimiter (normalize text)] r) = r)) ∧
    ((sniffDelimiter
          (normalize (reconstruct (sniffDelimiter (normalize text)) hs (parseCsv text).rows))
        = sniffDelimiter (normalize text) ∨ nonBlankLines (normalize text) = []) →
      (∀ r ∈ (parseCsv text).rows,
        trim (List.intercalate [sniffDelimiter (normalize text)] r) ≠ [] ∧
        parseRow (sniffDelimiter (normalize text))
          (List.intercalate [sniffDelimiter (normalize text)] r) = r) →
      parseCsv (reconstruct (sniffDelimiter (normalize text)) hs (parseCsv text).rows)
        = parseCsv text) ∧
    (trim (firstLine (normalize text)) ≠ [] →
      sniffDelimiter
          (normalize (reconstruct (sniffDelimiter (normalize text)) hs (parseCsv text).rows))
        = sniffDelimiter (normalize text)) ∧
    (∀ r ∈ (parseCsv text).rows,
      (∀ cell ∈ r, '"' ∉ cell ∧ sniffDelimiter (normalize text) ∉ cell ∧ trim cell = cell) →
      ((∃ cell ∈ r, cell ≠ []) ∨ (2 ≤ r.length ∧ sniffDelimiter (normalize text) ≠ '\t')) →
      trim (List.intercalate [sniffDelimiter (normalize text)] r) ≠ [] ∧
      parseRow (sniffDelimiter (normalize text))
        (List.intercalate [sniffDelimiter (normalize text)] r) = r) ∧
    ('"' ∉ text →
      ∀ r ∈ (parseCsv text).rows,
        trim (List.intercalate [sniffDelimiter (normalize text)] r) ≠ [] ∧
        parseRow (sniffDelimiter (normalize text))
          (List.intercalate [sniffDelimiter (normalize text)] r) = r) := by
  have hdmem := sniffDelimiter_mem (normalize text)
  have hdq : sniffDelimiter (normalize text) ≠ '"' := by
    intro h
    rw [h] at hdmem
    revert hdmem
    decide
  have hdlf : ('\n' : Char) ≠ sniffDelimiter (normalize text) := by
    intro h
    rw [← h] at hdmem
    revert hdmem
    decide
  have hdcr : ('\r' : Char) ≠ sniffDelimiter (normalize text) := by
    intro h
    rw [← h] at hdmem
    revert hdmem
    decide
  have hshape := parseCsv_shape_of_headers text hs hh
  -- the rebuilt lines hold neither CR nor LF
  have hcells : ∀ c : Char, c ≠ sniffDelimiter (normalize text) →
      (∀ l ∈ nonBlankLines (normalize text), c ∉ l) →
      ∀ r ∈ (parseCsv text).rows, c ∉ List.intercalate [sniffDelimiter (normalize text)] r := by
    intro c hcd hl r hr
    apply not_mem_intercalate_cells _ c r hcd
    intro cell hcell hc
    rcases hshape with ⟨_, _, hrows⟩ | ⟨L, rest, hnb, _, _, hrows⟩
    · rw [hrows] at hr
      simp at hr
    · rw [hrows] at hr
      obtain ⟨l, hlm, rfl⟩ := List.mem_map.1 hr
      exact hl l (by rw [hnb]; exact List.mem_cons_of_mem _ hlm)
        (mem_line_of_mem_parseRow _ c l cell hcell hc)
  have hrlf := hcells '\n' hdlf fun l hl => lf_not_mem_of_mem_nonBlankLines _ l hl
  have hrcr := hcells '\r' hdcr fun l hl => cr_not_mem_of_mem_nonBlankLines text l hl
  -- the exact statement under a delimiter that splits the rebuilt lines alike
  have hexact : (∀ l ∈ nonBlankLines
          (normalize (reconstruct (sniffDelimiter (normalize text)) hs (parseCsv text).rows)),
        split (sniffDelimiter
            (normalize (reconstruct (sniffDelimiter (normalize text)) hs (parseCsv text).rows))) l
          = split (sniffDelimiter (normalize text)) l ∧
        parseRow (sniffDelimiter
            (normalize (reconstruct (sniffDelimiter (normalize text)) hs (parseCsv text).rows))) l
          = parseRow (sniffDelimiter (normalize text)) l) →
      (parseCsv (reconstruct (sniffDelimiter (normalize text)) hs (parseCsv text).rows)
          = parseCsv text ↔
        ∀ r ∈ (parseCsv text).rows,
          trim (List.intercalate [sniffDelimiter (normalize text)] r) ≠ [] ∧
          parseRow (sniffDelimiter (normalize text))
            (List.intercalate [sniffDelimiter (normalize text)] r) = r) := by
    intro hdelim
    rw [parseCsv_eq_tableOfLines
        (reconstruct (sniffDelimiter (normalize text)) hs (parseCsv text).rows),
      tableOfLines_congr _ _ _ hdelim]
    rcases hshape with ⟨hnb, hhs, hrows⟩ | ⟨L, rest, hnb, hhead, hhs, hrows⟩
    · have hp : parseCsv text = { headers := some [], rows := [] } := by
        simp [parseCsv, hnb]
      have hR : reconstruct (sniffDelimiter (normalize text)) hs (parseCsv text).rows
          = ['\n'] := by
        rw [hrows, hhs]
        rfl
      have hnbR : nonBlankLines (normalize ['\n']) = [] := by decide
      rw [hR, hnbR, hp]
      simp [tableOfLines]
    · have hLmem : L ∈ nonBlankLines (normalize text) := by
        rw [hnb]
        exact List.mem_cons_self _ _
      have hT : parseCsv text = { headers := some hs, rows := (parseCsv text).rows } := by
        rw [← hh]
      subst hhs
      rw [normalize_reconstruct _ L _ (cr_not_mem_of_mem_nonBlankLines text L hLmem) hrcr,
        tableOfLines_reconstruct _ L _ (lf_not_mem_of_mem_nonBlankLines _ L hLmem)
          (by simpa using (List.mem_filter.1 hLmem).2) hhead hrlf]
      rw [← rows_read_back_iff]
      constructor
      · intro h
        rw [hT] at h
        exact (Table.mk.injEq _ _ _ _ ▸ h).2
      · intro h
        rw [h]
        exact hT.symm
  refine ⟨hexact, ?_, ?_, ?_, ?_⟩
  · intro hd hstable
    apply (hexact ?_).2 hstable
    rcases hd with hd | hnb
    · intro l _
      rw [hd]
      exact ⟨rfl, rfl⟩
    · rcases hshape with ⟨_, hhs, hrows⟩ | ⟨L, rest, hnb', _, _, _⟩
      · have hR : reconstruct (sniffDelimiter (normalize text)) hs (parseCsv text).rows
            = ['\n'] := by
          rw [hrows, hhs]
          rfl
        have hnbR : nonBlankLines (normalize ['\n']) = [] := by decide
        rw [hR, hnbR]
        intro l hl
        simp at hl
      · rw [hnb] at hnb'
        exact absurd hnb' (by simp)
  · intro hfirst
    rcases hshape with ⟨hnb, _, _⟩ | ⟨L, rest, hnb, hhead, hhs, hrows⟩
    · have := head?_nonBlankLines _ hfirst
      rw [hnb] at this
      exact absurd this (by simp)
    · have hhead? := head?_nonBlankLines _ hfirst
      rw [hnb] at hhead?
      have hL : L = firstLine (normalize text) := by simpa using hhead?
      have hLmem : L ∈ nonBlankLines (normalize text) := by
        rw [hnb]
        exact List.mem_cons_self _ _
      subst hhs
      rw [normalize_reconstruct _ L _ (cr_not_mem_of_mem_nonBlankLines text L hLmem) hrcr]
      apply sniffDelimiter_rejoinTrimmed
      rw [reconstruct_cons_eq, firstLine_append_lf _ _
        (not_mem_rejoinTrimmed _ _ L (lf_not_mem_of_mem_nonBlankLines _ L hLmem)), hL]
  · intro r _ hclean hnonblank
    have hne : r ≠ [] := by
      rcases hnonblank with ⟨cell, hcell, _⟩ | ⟨h2, _⟩
      · exact List.ne_nil_of_mem hcell
      · intro h
        rw [h] at h2
        simp at h2
    refine ⟨?_, parseRow_intercalate_of_clean _ r hdq hne hclean⟩
    rcases hnonblank with ⟨cell, hcell, hcne⟩ | ⟨h2, htab⟩
    · have htrim : trim cell ≠ [] := by
        rw [(hclean cell hcell).2.2]
        exact hcne
      obtain ⟨x, hx, hws⟩ := exists_not_whitespace_of_trim_ne_nil cell htrim
      exact trim_ne_nil_of_mem x _ (mem_intercalate_of_mem _ x r cell hcell hx) hws
    · have hws : isJsWhitespace (sniffDelimiter (normalize text)) = false := by
        have hcases : sniffDelimiter (normalize text) = ',' ∨
            sniffDelimiter (normalize text) = ';' ∨ sniffDelimiter (normalize text) = '\t' := by
          simpa [delimiters] using hdmem
        rcases hcases with h | h | h
        · rw [h]
          decide
        · rw [h]
          decide
        · exact absurd h htab
      exact trim_ne_nil_of_mem _ _ (delimiter_mem_intercalate _ r h2) hws
  · intro hq r hr
    rcases hshape with ⟨_, _, hrows⟩ | ⟨L, rest, hnb, hhead, hhs, hrows⟩
    · rw [hrows] at hr
      simp at hr
    · rw [hrows] at hr
      obtain ⟨l, hlm, rfl⟩ := List.mem_map.1 hr
      have hlmem : l ∈ nonBlankLines (normalize text) := by
        rw [hnb]
        exact List.mem_cons_of_mem _ hlm
      have hlq : '"' ∉ l := by
        intro hc
        have h1 := (mem_of_mem_split '\n' '"' _ l (List.mem_filter.1 hlmem).1 hc).1
        rcases mem_normalize _ _ h1 with h2 | h2
        · exact hq h2
        · exact absurd h2 (by decide)
      have hlnb : trim l ≠ [] := by simpa using (List.mem_filter.1 hlmem).2
      rw [parseRow_of_no_quote _ l hlq]
      have hJ : List.intercalate [sniffDelimiter (normalize text)]
          ((split (sniffDelimiter (normalize text)) l).map trim)
          = rejoinTrimmed (sniffDelimiter (normalize text)) l := rfl
      rw [hJ]
      refine ⟨trim_rejoinTrimmed_ne_nil _ l hlnb, ?_⟩
      rw [parseRow_of_no_quote _ _ (not_mem_rejoinTrimmed _ _ l hlq), split_rejoinTrimmed]

theorem parseCsv_reparse_reconstructed_witness :
    (parseCsv "h,k\n\"x\",1".toList).headers = some ["h".toList, "k".toList] ∧
    (parseCsv "h,k\n\"x\",1".toList).rows = [["x".toList, "1".toList]] ∧
    parseCsv (reconstruct ',' ["h".toList, "k".toList] [["x".toList, "1".toList]])
      = parseCsv "h,k\n\"x\",1".toList ∧
    parseCsv (reconstruct ',' ["a".toList, "b".toList] [["1".toList, "2".toList]])
      = parseCsv "\na,b\n1,2".toList ∧
    parseCsv (reconstruct ',' [] []) = parseCsv "".toList ∧
    sniffDelimiter (normalize "\t\t\nabc\nx".toList) = '\t' ∧
    parseCsv (reconstruct '\t' ["abc".toList] [["x".toList]]) = parseCsv "\t\t\nabc\nx".toList :=
  ⟨by decide, by decide,
    (parseCsv_reparse_reconstructed "h,k\n\"x\",1".toList ["h".toList, "k".toList]
      (by decide)).2.1 (Or.inl (by decide)) (by decide),
    (parseCsv_reparse_reconstructed "\na,b\n1,2".toList ["a".toList, "b".toList]
      (by decide)).2.1 (Or.inl (by decide)) (by decide),
    (parseCsv_reparse_reconstructed "".toList [] (by decide)).2.1 (Or.inr (by decide))
      (by decide),
    by decide,
    ((parseCsv_reparse_reconstructed "\t\t\nabc\nx".toList ["abc".toList] (by decide)).1
      (by decide)).2 (by decide)⟩

/-! ### Numbers -/

theorem roundToDouble_isNaN (negative : Bool) (n d : Nat) :
    (roundToDouble negative n d).isNaN = false := by
  unfold roundToDouble
  simp only []
  split_ifs <;> rfl

theorem decimalToDouble_isNaN (negative : Bool) (n : Nat) (scale : Int) :
    (decimalToDouble negative n scale).isNaN = false := by
  unfold decimalToDouble
  split_ifs <;> exact roundToDouble_isNaN _ _ _

theorem parseUnsigned_isNaN (negative : Bool) (u : JsString) :
    (parseUnsigned negative u).isNaN =
      (match u with
        | '.' :: c :: _ => !c.isDigit
        | c :: _ => !(c.isDigit || "Infinity".toList.isPrefixOf u)
        | [] => true) := by
  unfold parseUnsigned
  cases u with
  | nil => rfl
  | cons c rest =>
    by_cases hd : c.isDigit = true
    · have hdot : c ≠ '.' := by
        rintro rfl
        exact absurd hd (by decide)
      have hI : c ≠ 'I' := by
        rintro rfl
        exact absurd hd (by decide)
      have hpre : "Infinity".toList.isPrefixOf (c :: rest) = false := by
        rw [Bool.eq_false_iff]
        intro h
        have := List.isPrefixOf_iff_prefix.1 h
        obtain ⟨t, ht⟩ := this
        have : 'I' = c := by
          have h0 := congrArg List.head? ht
          simpa using h0
        exact hI this.symm
      have htk : (c :: rest).takeWhile Char.isDigit ≠ [] := by
        rw [List.takeWhile_cons, if_pos hd]
        exact List.cons_ne_nil _ _
      rw [hpre]
      simp only [Bool.false_eq_true, if_false, htk, false_and, decimalToDouble_isNaN]
      split
      · next heq =>
        injection heq with h1 _
        exact absurd h1 hdot
      · next heq =>
        injection heq with h1 _
        subst h1
        simp [hd]
      · next heq => exact absurd heq (List.cons_ne_nil _ _)
    · have hnd : c.isDigit = false := by simpa using hd
      have htk : (c :: rest).takeWhile Char.isDigit = [] := by
        rw [List.takeWhile_cons, hnd]
        rfl
      have hdw : (c :: rest).dropWhile Char.isDigit = c :: rest := by
        rw [List.dropWhile_cons, hnd]
        rfl
      rw [htk, hdw]
      by_cases hdot : c = '.'
      · subst hdot
        have hpre : "Infinity".toList.isPrefixOf ('.' :: rest) = false := rfl
        rw [hpre]
        cases rest with
        | nil => rfl
        | cons c₂ r₂ =>
          have hfd : fractionDigits ('.' :: c₂ :: r₂) = (c₂ :: r₂).takeWhile Char.isDigit := rfl
          rw [hfd, List.takeWhile_cons]
          cases h2 : c₂.isDigit
          · simp [JsNumber.isNaN, h2]
          · simp [decimalToDouble_isNaN, h2]
      · have hfd : fractionDigits (c :: rest) = [] := by
          unfold fractionDigits
          split
          · next heq =>
            injection heq with h1 _
            exact absurd h1 hdot
          · rfl
        rw [hfd]
        have hlhs : (if "Infinity".toList.isPrefixOf (c :: rest) = true
            then JsNumber.infinity negative
            else
              if ([] : JsString) = [] ∧ ([] : JsString) = [] then JsNumber.nan
              else
                decimalToDouble negative (digitsValue ([] ++ []))
                  (exponentOf (afterFraction (c :: rest))
                    - ((([] : JsString).length : Nat) : Int))).isNaN
            = !("Infinity".toList.isPrefixOf (c :: rest)) := by
          cases hp : "Infinity".toList.isPrefixOf (c :: rest)
          · simp [JsNumber.isNaN]
          · simp [JsNumber.isNaN]
        rw [hlhs]
        split
        · next heq =>
          injection heq with h1 _
          exact absurd h1 hdot
        · next heq =>
          injection heq with h1 _
          subst h1
          rw [hnd]
          rfl
        · next heq => exact absurd heq (List.cons_ne_nil _ _)

/-- The header test of `parseCsv` is the `NaN` test of `parseFloat`. -/
theorem parseFloat_isNaN (s : JsString) : (parseFloat s).isNaN = parseFloatIsNaN s := by
  unfold parseFloat parseFloatIsNaN
  rw [parseUnsigned_isNaN]
  have hu : dropSign (s.dropWhile isJsWhitespace) =
      (match s.dropWhile isJsWhitespace with
        | '+' :: r => r
        | '-' :: r => r
        | _ => s.dropWhile isJsWhitespace) := rfl
  rw [hu]
  rfl

theorem bitLengthAux_spec (fuel n : Nat) (h : n ≤ fuel) (hn : 0 < n) :
    2 ^ (bitLengthAux fuel n - 1) ≤ n ∧ n < 2 ^ bitLengthAux fuel n := by
  induction fuel generalizing n with
  | zero => omega
  | succ fuel ih =>
    rw [bitLengthAux, if_neg (by omega), Nat.add_sub_cancel]
    by_cases h2 : n / 2 = 0
    · have h1 : n = 1 := by omega
      subst h1
      have : bitLengthAux fuel (1 / 2) = 0 := by
        cases fuel <;> simp [bitLengthAux]
      rw [this]
      decide
    · have hpos : 0 < n / 2 := Nat.pos_of_ne_zero h2
      obtain ⟨hlo, hhi⟩ := ih (n / 2) (by omega) hpos
      have hk : 0 < bitLengthAux fuel (n / 2) := by
        by_contra hz
        have hz' : bitLengthAux fuel (n / 2) = 0 := by omega
        rw [hz'] at hhi
        simp at hhi
        omega
      obtain ⟨k, hk'⟩ : ∃ k, bitLengthAux fuel (n / 2) = k + 1 := ⟨_, (Nat.succ_pred_eq_of_pos hk).symm⟩
      rw [hk'] at hlo hhi ⊢
      rw [Nat.add_sub_cancel] at hlo
      rw [Nat.pow_succ] at hhi ⊢
      rw [Nat.pow_succ]
      constructor <;> omega

/-- The fuel of `bitLength` is enough: a positive `n` lies between
`2 ^ (bitLength n - 1)` and `2 ^ bitLength n`. -/
theorem bitLength_spec (n : Nat) (hn : 0 < n) :
    2 ^ (bitLength n - 1) ≤ n ∧ n < 2 ^ bitLength n :=
  bitLengthAux_spec n n (Nat.le_refl n) hn

/-! ### Aggregation -/

theorem contributes_iff (s p : Nat) (row : List JsString) :
    contributes s p row = true ↔
      (max s p < row.length ∧ parseFloat (row.getD s []) ≠ JsNumber.nan) := by
  unfold contributes
  rw [Bool.and_eq_true, decide_eq_true_iff, ← parseFloat_isNaN]
  constructor
  · rintro ⟨h1, h2⟩
    refine ⟨h1, ?_⟩
    intro hnan
    rw [hnan] at h2
    exact absurd h2 (by decide)
  · rintro ⟨h1, h2⟩
    refine ⟨h1, ?_⟩
    cases hv : parseFloat (row.getD s []) with
    | nan => exact absurd hv h2
    | infinity _ => rfl
    | finite _ _ _ => rfl

theorem aggregateStep_eq (s p : Nat) (st : JsNumber × List (JsString × JsNumber))
    (row : List JsString) :
    aggregateStep s p st row =
      if contributes s p row = true then
        (st.1.add (parseFloat (row.getD s [])),
          st.2 ++ [(row.getD p [], parseFloat (row.getD s []))])
      else st := by
  unfold aggregateStep contributes
  rw [← parseFloat_isNaN]
  by_cases h1 : row.length > max s p
  · cases h2 : (parseFloat (row.getD s [])).isNaN <;> simp [h1, h2]
  · have h1' : ¬ max s p < row.length := h1
    simp [h1, h1']

theorem foldl_aggregateStep (s p : Nat) (rows : List (List JsString))
    (st : JsNumber × List (JsString × JsNumber)) :
    rows.foldl (aggregateStep s p) st =
      (((rows.filter (contributes s p)).map fun row => parseFloat (row.getD s [])).foldl
          JsNumber.add st.1,
        st.2 ++ (rows.filter (contributes s p)).map fun row =>
          (row.getD p [], parseFloat (row.getD s []))) := by
  induction rows generalizing st with
  | nil => simp
  | cons row rows ih =>
    rw [List.foldl_cons, ih, aggregateStep_eq]
    by_cases hc : contributes s p row = true
    · simp [hc]
    · simp [hc]

set_option exponentiation.threshold 2000 in
set_option maxRecDepth 100000 in
/-- C14. Aggregation: for every list of rows and every pair of column indices,
the rows that contribute are exactly those longer than both indices whose
value cell `parseFloat` does not read as `NaN`; the total is the sum of their
parsed values, added in input order from 0, and the product table lists
exactly those rows, in input order, as label cell and parsed value.  For the
worked example (value column 1, label column 0, as inferred from its headers)
the total is the number 1234.56 and there are three table rows. -/
theorem aggregate_total_and_rows (rows : List (List JsString)) (s p : Nat) :
    (∀ row, contributes s p row = true ↔
      (max s p < row.length ∧ parseFloat (row.getD s []) ≠ JsNumber.nan)) ∧
    (aggregate rows s p).1 =
      ((rows.filter (contributes s p)).map fun row => parseFloat (row.getD s [])).foldl
        JsNumber.add JsNumber.zero ∧
    (aggregate rows s p).2 =
      (rows.filter (contributes s p)).map
        (fun row => (row.getD p [], parseFloat (row.getD s []))) ∧
    salesColumnIndex (some ["Products".toList, "Sales".toList]) = 1 ∧
    productColumnIndex (some ["Products".toList, "Sales".toList]) = 0 ∧
    aggregate [["Phones".toList, "1000".toList], ["Books".toList, "123.45".toList],
        ["Notebooks".toList, "111.11".toList]] 1 0 =
      (JsNumber.finite false 5429652300748554 (-42),
        [("Phones".toList, JsNumber.finite false 8796093022208000 (-43)),
         ("Books".toList, JsNumber.finite false 8687021468732621 (-46)),
         ("Notebooks".toList, JsNumber.finite false 7818671165580247 (-46))]) ∧
    parseFloat "1234.56".toList = JsNumber.finite false 5429652300748554 (-42) := by
  refine ⟨contributes_iff s p, ?_, ?_, by decide, by decide, by decide, by decide⟩
  · unfold aggregate
    rw [foldl_aggregateStep]
  · unfold aggregate
    rw [foldl_aggregateStep]
    rfl

set_option exponentiation.threshold 2000 in
set_option maxRecDepth 100000 in
theorem aggregate_total_and_rows_witness :
    (aggregate [["a".toList], ["b".toList, "x".toList], ["c".toList, " 1.5e0kg".toList],
        ["d".toList, "-0.25".toList, "z".toList]] 1 0).2 =
      [("c".toList, JsNumber.finite false 6755399441055744 (-52)),
       ("d".toList, JsNumber.finite true 4503599627370496 (-54))] ∧
    (aggregate [["a".toList], ["b".toList, "x".toList], ["c".toList, " 1.5e0kg".toList],
        ["d".toList, "-0.25".toList, "z".toList]] 1 0).1 =
      JsNumber.finite false 5629499534213120 (-52) :=
  ⟨((aggregate_total_and_rows [["a".toList], ["b".toList, "x".toList],
      ["c".toList, " 1.5e0kg".toList], ["d".toList, "-0.25".toList, "z".toList]] 1 0).2.2.1).trans
      (by decide),
    ((aggregate_total_and_rows [["a".toList], ["b".toList, "x".toList],
      ["c".toList, " 1.5e0kg".toList], ["d".toList, "-0.25".toList, "z".toList]] 1 0).2.1).trans
      (by decide)⟩

end SalesScript
